import Mathlib

/-!
Binary reply decoder of the Meteomatics C++ connector

A shallow embedding of `Meteomatics_Internals.h`: the byte cursor
`MMIntern::MemoryClass`, the three wire-format readers of `MeteomaticsApiClient`,
its calendar conversion and the strings it builds for a request, followed by the
theorems about them.

Conventions of the embedding

* `std::size_t` is 64 bits wide: every `size_t` addition and subtraction of the
  source is taken modulo `sizeModulus = 2 ^ 64`.
* A scalar (`int32_t`, `float`, `double`) is represented by its bit pattern, a
  natural number; the host is little-endian, so the object representation of a
  pattern `v` of width `w` is `leBytes w v`.  `toInt32` gives the signed value
  of a 32-bit pattern.
* A C++ operation that has no normal return (undefined behaviour, or an
  exception that nothing in the repository catches) is a `Fault`.
* The calendar conversion `datevec` computes on the value of a `double`: there
  the serial date is the rational number that the `double` holds, and an
  operation whose exact result need not be a `double` is rounded by
  `roundDouble`.
-/

namespace Meteomatics

/-! ## Bytes and scalars -/

/-- One `char` of the buffer. -/
abbrev Byte := Fin 256

/-- Modulus of `std::size_t` arithmetic. -/
def sizeModulus : Nat := 2 ^ 64

/-- Value of a little-endian byte sequence (least significant byte first). -/
def leValue : List Byte → Nat
  | [] => 0
  | b :: bs => b.val + 256 * leValue bs

/-- Object representation, on a little-endian host, of the bit pattern `v` in a
scalar of `w` bytes. -/
def leBytes : Nat → Nat → List Byte
  | 0, _ => []
  | w + 1, v => ⟨v % 256, Nat.mod_lt v (by decide)⟩ :: leBytes w (v / 256)

/-- Signed value of a 32-bit two's-complement pattern. -/
def toInt32 (u : Nat) : Int :=
  if u % 2 ^ 32 < 2 ^ 31 then (u % 2 ^ 32 : Nat) else (u % 2 ^ 32 : Nat) - 2 ^ 32

/-- Ways in which a call does not return normally. -/
inductive Fault where
  /-- An element or byte range outside its container is accessed. -/
  | outOfRange
  /-- The value of a variable that was never written is used. -/
  | indeterminate
  /-- A container is asked for more elements than it can hold
  (`std::length_error`), as when a negative count is converted to `size_t`. -/
  | lengthError
  /-- A `double` outside the range of `int` is converted to `int`. -/
  | conversion
  /-- The result of a signed integer operation is outside the range of its type. -/
  | overflow
  deriving DecidableEq, Repr

deriving instance DecidableEq for Except

/-- Use of a local variable declared without initialiser: `none` is the
indeterminate value. -/
def use {α : Type} : Option α → Except Fault α
  | some a => .ok a
  | none => .error .indeterminate

/-! ## `MMIntern::MemoryClass` -/

/-- The class `MMIntern::MemoryClass`: the byte vector `mem` and the private read
position `readPos`. -/
structure MemoryClass where
  mem : List Byte
  readPos : Nat
  deriving DecidableEq, Repr

namespace MemoryClass

/-- The constructors `MemoryClass()` and `MemoryClass(initialCapacity)`: an empty
vector (capacity has no observable effect) and `readPos(0)`. -/
def init : MemoryClass := { mem := [], readPos := 0 }

/-- Method `resetReadPos`: `readPos = 0`. -/
def resetReadPos (self : MemoryClass) : MemoryClass :=
  { self with readPos := 0 }

/-- Method `size`: `mem.size()`. -/
def size (self : MemoryClass) : Nat := self.mem.length

/-- Method `readString(_size)`.  The clamp `if (readPos + _size > mem.size())
_size = mem.size() - readPos` is computed in `size_t`; the string is then built
from the `_size` bytes that start at `&mem[0] + readPos`, which have to lie
inside the vector; finally `readPos += _size`. -/
def readString (self : MemoryClass) (_size : Nat) :
    Except Fault (List Byte × MemoryClass) :=
  let _size :=
    if (self.readPos + _size) % sizeModulus > self.mem.length then
      (self.mem.length + sizeModulus - self.readPos % sizeModulus) % sizeModulus
    else _size
  if self.readPos + _size ≤ self.mem.length then
    .ok ((self.mem.drop self.readPos).take _size,
         { self with readPos := (self.readPos + _size) % sizeModulus })
  else .error .outOfRange

/-- Operator `operator>>(T& v)` with `typeSize = sizeof(T)`.  The variable is given by its
content `v` before the call and by `put`, which stores a bit pattern in it.  When
`readPos + typeSize > mem.size()` (in `size_t`) nothing happens; otherwise
`std::copy` moves the bytes `[readPos, readPos + typeSize)` of the vector into
the variable and `readPos += typeSize`. -/
def operatorShr {α : Type} (typeSize : Nat) (put : Nat → α) (self : MemoryClass) (v : α) :
    Except Fault (MemoryClass × α) :=
  if (self.readPos + typeSize) % sizeModulus > self.mem.length then
    .ok (self, v)
  else if self.readPos + typeSize ≤ self.mem.length then
    .ok ({ self with readPos := (self.readPos + typeSize) % sizeModulus },
         put (leValue ((self.mem.drop self.readPos).take typeSize)))
  else .error .outOfRange

/-- Operator `operator<<(const T& v)`: appends the `typeSize` bytes of `v` to the vector. -/
def operatorShl (typeSize : Nat) (self : MemoryClass) (v : Nat) : MemoryClass :=
  { self with mem := self.mem ++ leBytes typeSize v }

/-- Method `read(T& t)`: `*this >> t; return sizeof(T);`.  The result is the object, the
variable and the returned size. -/
def read {α : Type} (typeSize : Nat) (put : Nat → α) (self : MemoryClass) (t : α) :
    Except Fault (MemoryClass × α × Nat) := do
  let (self, t) ← operatorShr typeSize put self t
  pure (self, t, typeSize)

/-- Method `write(const T& t)`: `*this << t; return sizeof(T);`. -/
def write (typeSize : Nat) (self : MemoryClass) (t : Nat) : MemoryClass × Nat :=
  (operatorShl typeSize self t, typeSize)

/-- Method `readWithoutProceed(T& t)`: `*this >> t; readPos -= sizeof(T);
return sizeof(T);`, the subtraction being a `size_t` one. -/
def readWithoutProceed {α : Type} (typeSize : Nat) (put : Nat → α) (self : MemoryClass)
    (t : α) : Except Fault (MemoryClass × α × Nat) := do
  let (self, t) ← operatorShr typeSize put self t
  let self := { self with
    readPos := (self.readPos + sizeModulus - typeSize % sizeModulus) % sizeModulus }
  pure (self, t, typeSize)

end MemoryClass

/-! ## Containers and loops -/

/-- Type `typedef std::vector<std::vector<double>> Matrix`, every `double` being its
bit pattern. -/
abbrev Matrix := List (List Nat)

/-- Call `v.resize(n, fill)` where `n` is an `int` converted to `size_type`: a negative
`n` becomes a count above `max_size()`. -/
def resize {α : Type} (v : List α) (n : Int) (fill : α) : Except Fault (List α) :=
  if n < 0 then .error .lengthError
  else .ok (v.take n.toNat ++ List.replicate (n.toNat - v.length) fill)

/-- Constructor `std::vector<double>(n)`: `n` value-initialised (`0.0`) elements. -/
def vectorOfSize (n : Int) : Except Fault (List Nat) :=
  if n < 0 then .error .lengthError else .ok (List.replicate n.toNat 0)

/-- Call `v.reserve(n)`: no effect on the content of the vector. -/
def reserve (n : Int) : Except Fault Unit :=
  if n < 0 then .error .lengthError else .ok ()

/-- Element access `v[i]` on a vector. -/
def index {α : Type} (v : List α) (i : Nat) : Except Fault α :=
  match v[i]? with
  | some a => .ok a
  | none => .error .outOfRange

/-- Assignment `v[i] = a`. -/
def assign {α : Type} (v : List α) (i : Nat) (a : α) : Except Fault (List α) :=
  if i < v.length then .ok (v.set i a) else .error .outOfRange

/-- Loop `for (k = i; k < i + n; k++) body`: the `n` remaining iterations of a counting
loop whose counter is at `i`, on the loop state `s`. -/
def forLoop {σ : Type} (body : Nat → σ → Except Fault σ) : Nat → Nat → σ → Except Fault σ
  | 0, _, s => .ok s
  | n + 1, i, s => do
    let s ← body i s
    forLoop body n (i + 1) s

/-- Loop `for (auto& value : axis) mem.read(value);` on a vector of `double`. -/
def readEach : MemoryClass → List Nat → Except Fault (MemoryClass × List Nat)
  | mem, [] => .ok (mem, [])
  | mem, value :: rest => do
    let (mem, value, _) ← mem.read 8 id value
    let (mem, rest) ← readEach mem rest
    pure (mem, value :: rest)

/-! ## Scalars of the grid format -/

/-- Index of the highest set bit of `m < 2 ^ 64` (`0` for `m = 0`). -/
def topBit (m : Nat) : Nat :=
  (List.range 64).foldl (fun k i => if 2 ^ i ≤ m then i else k) 0

/-- Conversion `static_cast<double>(tmpd)` for a `float`: the IEEE-754 widening of a binary32
pattern to the binary64 pattern of the same value (a NaN comes out quiet). -/
def floatToDouble (f : Nat) : Nat :=
  let sign := f / 2 ^ 31 % 2
  let e := f / 2 ^ 23 % 256
  let m := f % 2 ^ 23
  if e = 255 then
    sign * 2 ^ 63 + 2047 * 2 ^ 52 + (if m = 0 then 0 else 2 ^ 51 + m * 2 ^ 29 % 2 ^ 51)
  else if e = 0 then
    if m = 0 then sign * 2 ^ 63
    else sign * 2 ^ 63 + (topBit m + 874) * 2 ^ 52 + (m - 2 ^ topBit m) * 2 ^ (52 - topBit m)
  else sign * 2 ^ 63 + (e + 896) * 2 ^ 52 + m * 2 ^ 29

/-- Binary64 pattern of the integer `n`, `0 ≤ n < 2 ^ 53`. -/
def doubleOfNat (n : Nat) : Nat :=
  if n = 0 then 0 else (topBit n + 1023) * 2 ^ 52 + (n - 2 ^ topBit n) * 2 ^ (52 - topBit n)

/-- Binary32 pattern of the integer `n`, `0 ≤ n < 2 ^ 24`. -/
def floatOfNat (n : Nat) : Nat :=
  if n = 0 then 0 else (topBit n + 127) * 2 ^ 23 + (n - 2 ^ topBit n) * 2 ^ (23 - topBit n)

/-- The bytes of the literal `"MBG_"`. -/
def magicMBG : List Byte := [77, 66, 71, 95]

/-! ## The readers of `MeteomaticsApiClient`

The conversion `convDateIso8601` of a `double` to its time string is a parameter
of the two time-series readers, which only pass each date through it; the
conversion itself is embedded further down, on the value of the `double`. -/

/-- Body of the loop over `k` in `readMultiPointTimeSeriesBin`: one value is read
and pushed to `tmpValues`. -/
def multiPointValue (_k : Nat) :
    MemoryClass × List Nat → Except Fault (MemoryClass × List Nat)
  | (mem, tmpValues) => do
    let (mem, value, _) ← mem.read 8 some none
    let value ← use value
    pure (mem, tmpValues ++ [value])

/-- Body of the loop over `j` in `readMultiPointTimeSeriesBin`: one date record. -/
def multiPointRecord (convDateIso8601 : Nat → String) (_j : Nat) :
    MemoryClass × Matrix × List String → Except Fault (MemoryClass × Matrix × List String)
  | (mem, tmpMat, times) => do
    let (mem, nParameter, _) ← mem.read 4 some none
    let (mem, t, _) ← mem.read 8 some none
    let t ← use t
    let times := times ++ [convDateIso8601 t]
    let nParameter ← use nParameter
    let tmpValues : List Nat := []
    reserve (toInt32 nParameter)
    let (mem, tmpValues) ←
      forLoop multiPointValue (toInt32 nParameter).toNat 0 (mem, tmpValues)
    pure (mem, tmpMat ++ [tmpValues], times)

/-- Body of the loop over `i` in `readMultiPointTimeSeriesBin`: one coordinate. -/
def multiPointCoord (convDateIso8601 : Nat → String) (_i : Nat) :
    MemoryClass × List Matrix × List String →
      Except Fault (MemoryClass × List Matrix × List String)
  | (mem, results, times) => do
    let (mem, nTimes, _) ← mem.read 4 some none
    let nTimes ← use nTimes
    let tmpMat : Matrix := []
    reserve (toInt32 nTimes)
    let (mem, tmpMat, times) ←
      forLoop (multiPointRecord convDateIso8601) (toInt32 nTimes).toNat 0 (mem, tmpMat, times)
    pure (mem, results ++ [tmpMat], times)

/-- Function `readMultiPointTimeSeriesBin(mem, results, times)`. -/
def readMultiPointTimeSeriesBin (convDateIso8601 : Nat → String) (mem : MemoryClass)
    (results : List Matrix) (times : List String) :
    Except Fault (Bool × MemoryClass × List Matrix × List String) := do
  let (mem, nCoords, _) ← mem.read 4 some none
  let nCoords ← use nCoords
  let (mem, results, times) ←
    forLoop (multiPointCoord convDateIso8601) (toInt32 nCoords).toNat 0 (mem, results, times)
  pure (true, mem, results, times)

/-- Body of the loop over `j` in `readSinglePointTimeSeriesBin`:
`mem.read(results[i][j])`. -/
def singlePointValue (i j : Nat) : MemoryClass × Matrix → Except Fault (MemoryClass × Matrix)
  | (mem, results) => do
    let row ← index results i
    let cell ← index row j
    let (mem, cell, _) ← mem.read 8 id cell
    pure (mem, results.set i (row.set j cell))

/-- Body of the loop over `i` in `readSinglePointTimeSeriesBin`: one date record.
The variable `numParams` of the enclosing function is part of the loop state. -/
def singlePointRecord (convDateIso8601 : Nat → String) (i : Nat) :
    MemoryClass × Option Nat × Matrix × List String →
      Except Fault (MemoryClass × Option Nat × Matrix × List String)
  | (mem, numParams, results, times) => do
    let (mem, numParams, _) ← mem.read 4 some numParams
    let (mem, date, _) ← mem.read 8 some none
    let date ← use date
    let times ← assign times i (convDateIso8601 date)
    let n ← use numParams
    let (mem, results) ← forLoop (singlePointValue i) (toInt32 n).toNat 0 (mem, results)
    pure (mem, numParams, results, times)

/-- Function `readSinglePointTimeSeriesBin(mem, results, times)`. -/
def readSinglePointTimeSeriesBin (convDateIso8601 : Nat → String) (mem : MemoryClass)
    (results : Matrix) (times : List String) :
    Except Fault (Bool × MemoryClass × Matrix × List String) := do
  let (mem, numDates, _) ← mem.read 4 some none
  let (mem, numParams, _) ← mem.readWithoutProceed 4 some none
  let numDates ← use numDates
  let n ← use numParams
  let row ← vectorOfSize (toInt32 n)
  let results ← resize results (toInt32 numDates) row
  let times ← resize times (toInt32 numDates) ""
  let (mem, _, results, times) ←
    forLoop (singlePointRecord convDateIso8601) (toInt32 numDates).toNat 0
      (mem, numParams, results, times)
  pure (true, mem, results, times)

/-- Result of the grid reader: the returned flag, the cursor, the three outputs
and the text written to `std::cout`. -/
structure GridResult where
  ok : Bool
  mem : MemoryClass
  results : Matrix
  lats : List Nat
  lons : List Nat
  cout : String
  deriving DecidableEq, Repr

/-- Body of the loop over `j` on the branch `precision == sizeof(float)` of the
grid reader: `float tmpd; mem.read(tmpd); results[i][j] = static_cast<double>(tmpd);`. -/
def gridFloatValue (i j : Nat) : MemoryClass × Matrix → Except Fault (MemoryClass × Matrix)
  | (mem, results) => do
    let (mem, tmpd, _) ← mem.read 4 some none
    let tmpd ← use tmpd
    let row ← index results i
    let row ← assign row j (floatToDouble tmpd)
    pure (mem, results.set i row)

/-- Body of the loop over `j` on the other branch of the grid reader:
`mem.read(results[i][j]);`. -/
def gridDoubleValue (i j : Nat) : MemoryClass × Matrix → Except Fault (MemoryClass × Matrix)
  | (mem, results) => do
    let row ← index results i
    let cell ← index row j
    let (mem, cell, _) ← mem.read 8 id cell
    pure (mem, results.set i (row.set j cell))

/-- Function `readGridAndMatrixFromMBG2Format(mem, results, lats, lons)`. -/
def readGridAndMatrixFromMBG2Format (mem : MemoryClass) (_results : Matrix)
    (lats lons : List Nat) : Except Fault GridResult := do
  -- `results.clear();`
  let results : Matrix := []
  let (str, mem) ← mem.readString 4
  if str ≠ magicMBG then
    return ⟨false, mem, results, lats, lons, "ERROR. No MBG received\n"⟩
  let (mem, version, _) ← mem.read 4 some none
  let (mem, precision, _) ← mem.read 4 some none
  let (mem, numPayloadsPerForecast, _) ← mem.read 4 some none
  let (mem, payloadMeta, _) ← mem.read 4 some none
  let (mem, numForecasts, _) ← mem.read 4 some none
  let (mem, _forecastDateUx, _) ← mem.read 8 some none
  let version ← use version
  if toInt32 version ≠ 2 then
    return ⟨false, mem, results, lats, lons,
      "only MBG version 2 supported, this is version " ++ toString (toInt32 version) ++ "\n"⟩
  let numPayloadsPerForecast ← use numPayloadsPerForecast
  if toInt32 numPayloadsPerForecast > 100000 then
    return ⟨false, mem, results, lats, lons,
      "WARNING! numForecasts too big (possibly big-endian): "
        ++ toString (toInt32 numPayloadsPerForecast) ++ "\n"⟩
  if toInt32 numPayloadsPerForecast ≠ 1 then
    return ⟨false, mem, results, lats, lons,
      "WARNING! wrong number of payloads per forecast date received\n"⟩
  let payloadMeta ← use payloadMeta
  if toInt32 payloadMeta ≠ 0 then
    return ⟨false, mem, results, lats, lons,
      "wrong payload type received: " ++ toString (toInt32 payloadMeta) ++ "\n"⟩
  let numForecasts ← use numForecasts
  if toInt32 numForecasts ≠ 1 then
    return ⟨false, mem, results, lats, lons,
      "multiple validdates in mbg not yet supported in CacheClient\n"⟩
  let (mem, numLat, _) ← mem.read 4 some none
  let numLat ← use numLat
  let lats ← resize lats (toInt32 numLat) 0
  let (mem, lats) ← readEach mem lats
  let (mem, numLon, _) ← mem.read 4 some none
  let numLon ← use numLon
  let lons ← resize lons (toInt32 numLon) 0
  let (mem, lons) ← readEach mem lons
  let row ← vectorOfSize (toInt32 numLon)
  let results ← resize results (toInt32 numLat) row
  let precision ← use precision
  if toInt32 precision = 4 then
    let (mem, results) ←
      forLoop (fun i => forLoop (gridFloatValue i) lons.length 0) lats.length 0 (mem, results)
    return ⟨true, mem, results, lats, lons, ""⟩
  else
    let (mem, results) ←
      forLoop (fun i => forLoop (gridDoubleValue i) lats.length 0) lats.length 0 (mem, results)
    return ⟨true, mem, results, lats, lons, ""⟩

/-- Function `MMIntern::http_code_success`. -/
def http_code_success (http_code : Int) : Bool :=
  decide (http_code ≥ 200) && decide (http_code < 400)

/-- Result of `getGrid`: the returned flag and the four outputs. -/
structure GetGridResult where
  ok : Bool
  gridResult : Matrix
  latGridPts : List Nat
  lonGridPts : List Nat
  msg : List Byte
  deriving DecidableEq, Repr

/-- Function `getGrid`, from the reply of the transport on: `mem` is the object that
`requestBinary` has filled (read position `0`) and `httpReturnCode` the code it
has set.  The four outputs are cleared first, whatever they held; a reply without
success code is handed back as `msg`, and a decoded grid is reversed along the
latitude axis. -/
def getGrid (mem : MemoryClass) (httpReturnCode : Int) (_gridResult : Matrix)
    (_latGridPts _lonGridPts : List Nat) (_msg : List Byte) : Except Fault GetGridResult :=
  if !http_code_success httpReturnCode then do
    let (msg, _) ← mem.readString mem.size
    pure ⟨false, [], [], [], msg⟩
  else do
    let r ← readGridAndMatrixFromMBG2Format mem [] [] []
    if !r.ok then
      pure ⟨false, r.results, r.lats, r.lons, []⟩
    else
      pure ⟨true, r.results.reverse, r.lats.reverse, r.lons, []⟩

/-! ## Wire layouts and the unread view of a cursor -/

/-- The unread part of the buffer of `m` is `bs`: the position is inside a vector of
admissible length and `bs` are the bytes from the position on. -/
def Unread (m : MemoryClass) (bs : List Byte) : Prop :=
  m.mem.length < 2 ^ 63 ∧ m.readPos ≤ m.mem.length ∧ m.mem.drop m.readPos = bs

/-- One date record of a time series: the date and the parameter values. -/
structure DateRecord where
  date : Nat
  values : List Nat
  deriving DecidableEq, Repr

/-- All scalars of the record are 64-bit patterns. -/
def DateRecord.Valid (r : DateRecord) : Prop :=
  r.date < 2 ^ 64 ∧ ∀ v ∈ r.values, v < 2 ^ 64

instance (r : DateRecord) : Decidable r.Valid := by
  unfold DateRecord.Valid; infer_instance

/-- Layout of one record of a time-series reply: `numParams:int32`, `date:float64`,
then the doubles. -/
def encodeRecord (numParams : Nat) (r : DateRecord) : List Byte :=
  leBytes 4 numParams ++ leBytes 8 r.date ++ r.values.flatMap (leBytes 8)

/-- Layout of a single-point reply: `numDates:int32`, then the records, each one
starting with the same `numParams`. -/
def encodeSinglePoint (numParams : Nat) (records : List DateRecord) : List Byte :=
  leBytes 4 records.length ++ records.flatMap (encodeRecord numParams)

/-- Layout of the records of one coordinate of a multi-point reply:
`numTimes:int32`, then the records, each one with its own `numParams`. -/
def encodeCoord (records : List DateRecord) : List Byte :=
  leBytes 4 records.length ++ records.flatMap (fun r => encodeRecord r.values.length r)

/-- Layout of a multi-point reply: `numCoords:int32`, then the coordinates. -/
def encodeMultiPoint (coords : List (List DateRecord)) : List Byte :=
  leBytes 4 coords.length ++ coords.flatMap encodeCoord

/-- Layout of the values of a grid: row after row, each value `width` bytes wide. -/
def encodeGridValues (width : Nat) (values : Matrix) : List Byte :=
  values.flatMap (fun row => row.flatMap (leBytes width))

/-- Layout of an MBG version-2 reply: the magic, `version = 2`, `precision`,
`numPayloadsPerForecast = 1`, `payloadMeta = 0`, `numForecasts = 1`, the forecast
date, the latitude axis and the longitude axis, each preceded by its length, and
the bytes of the values. -/
def encodeMBG2 (precision forecastDate : Nat) (lats lons : List Nat) (values : List Byte) :
    List Byte :=
  magicMBG ++ leBytes 4 2 ++ leBytes 4 precision ++ leBytes 4 1 ++ leBytes 4 0 ++ leBytes 4 1
    ++ leBytes 8 forecastDate
    ++ leBytes 4 lats.length ++ lats.flatMap (leBytes 8)
    ++ leBytes 4 lons.length ++ lons.flatMap (leBytes 8) ++ values

/-- Layout of the header of an MBG reply: the magic, `version`, `precision`,
`numPayloadsPerForecast`, `payloadMeta`, `numForecasts` and the forecast date. -/
def encodeHeader (version precision numPayloadsPerForecast payloadMeta numForecasts
    forecastDate : Nat) : List Byte :=
  magicMBG ++ leBytes 4 version ++ leBytes 4 precision ++ leBytes 4 numPayloadsPerForecast
    ++ leBytes 4 payloadMeta ++ leBytes 4 numForecasts ++ leBytes 8 forecastDate

/-! ## The calendar conversion

`datevec` computes in `double`.  The embedding takes the serial date as the rational
number that the `double` holds; the infinities and NaN, which hold no number, are not
serial dates of the embedding.  The product `86400*t` and the sum `t+0.5` of a serial
date that is not an integer are rounded to `double` by `roundDouble`.  After the
`std::floor` that follows them, and for an integer serial date from the start, every
`double` of the function holds an integer and is an `Int` here; sums, differences and
products of these integers are exact in `double`.  The quotients by `60.`, `24.`,
`365.2425` and `29.` and the products by `0.25`, `0.01` and `0.0025` occur under
`std::floor`, `std::ceil` or the conversion to `int` only, and are taken with the floor
division `/` of `Int`: the decimal constants are `365.2425 = 146097/400`, `0.25 = 1/4`,
`0.01 = 1/100` and `0.0025 = 1/400`, so that `std::floor(t/365.2425)` is
`400 * t / 146097` and `std::ceil(0.25*y)` is `ceilDiv y 4`. -/

/-- Conversion of an integer-valued `double` to `int`, which is undefined outside the
range of `int`. -/
def toInt (x : Int) : Except Fault Int :=
  if -2 ^ 31 ≤ x ∧ x < 2 ^ 31 then .ok x else .error .conversion

/-- Value of `std::ceil(c * y)` for an integer `y` and the constant `c = 1 / n`. -/
def ceilDiv (y n : Int) : Int := -(-y / n)

/-- The expression `365.0*y + std::ceil(0.25*y) - std::ceil(0.01*y) + std::ceil(0.0025*y)`
of `datevec`. -/
def daysBeforeYear (y : Int) : Int :=
  365 * y + ceilDiv y 4 - ceilDiv y 100 + ceilDiv y 400

/-- Cumulative days per month in a nonleap year. -/
def cdm0 : List Int := [0, 31, 59, 90, 120, 151, 181, 212, 243, 273, 304, 334, 365]

/-- Cumulative days per month in a leap year. -/
def cdml : List Int := [0, 31, 60, 91, 121, 152, 182, 213, 244, 274, 305, 335, 366]

/-- Element access `cdm[i]` on an array of `double` with an `int` index. -/
def arrayAt (cdm : List Int) (i : Int) : Except Fault Int :=
  if i < 0 then .error .outOfRange else index cdm i.toNat

/-- The tmax of `datevec`: `1.2884901888e+11`, which is `30 * 2 ^ 32`. -/
def tmax : ℚ := 128849018880

/-- Nearest integer to `q`, the even one of the two when `q` lies half way between two
integers. -/
def roundHalfEven (q : ℚ) : Int :=
  if q - ⌊q⌋ < 1 / 2 then ⌊q⌋
  else if 1 / 2 < q - ⌊q⌋ then ⌊q⌋ + 1
  else if ⌊q⌋ % 2 = 0 then ⌊q⌋ else ⌊q⌋ + 1

/-- Value of the `double` (IEEE 754 binary64, rounding to nearest, ties to even) that an
operation with the exact result `x` returns, for `x` of magnitude below `2 ^ 1024`: the
multiple of `2 ^ (e - 52)` nearest to `x`, where `2 ^ e ≤ |x| < 2 ^ (e + 1)` and `e` is
taken as `-1022` below the normal range. -/
def roundDouble (x : ℚ) : ℚ :=
  if x = 0 then 0
  else roundHalfEven (x / 2 ^ (max (Int.log 2 |x|) (-1022) - 52))
    * 2 ^ (max (Int.log 2 |x|) (-1022) - 52)

/-- The statements `t = 86400*t; t = std::floor(t+0.5);` of `datevec`: the number of
seconds of the serial date, rounded to a whole number.  The product and the sum are
operations of `double`. -/
def roundedSeconds (time : ℚ) : Int :=
  ⌊roundDouble (roundDouble (86400 * time) + 1 / 2)⌋

/-- The branch of `datevec` on `t == std::floor(t)`: the day count `t` that is left
after the time of day, and `h`, `mi`, `s`. -/
def timeOfDay (time : ℚ) : Int × Int × Int × Int :=
  if time = ⌊time⌋ then
    -- `s = mi = h = 0.;`, then `t = std::floor(t);`
    (⌊time⌋, 0, 0, 0)
  else
    -- `t = 86400*t; t = std::floor(t+0.5);`
    let t : Int := roundedSeconds time
    let ts := t
    let t := ts / 60
    let s := ts - 60 * t
    let ts := t
    let t := ts / 60
    let mi := ts - 60 * t
    let ts := t
    let t := ts / 24
    let h := ts - 24 * t
    (t, h, mi, s)

/-- The month search of `datevec` for the day `t` of a year: `mon = int(t/29.-1)`, one
step forward when `t > cdm[mon+1]`; returns `mo` and `d`. -/
def monthAndDay (cdm : List Int) (t : Int) : Except Fault (Int × Int) := do
  -- the conversion to `int` truncates `t/29 - 1 = (t - 29)/29` toward zero
  let mon ← toInt (Int.tdiv (t - 29) 29)
  let next ← arrayAt cdm (mon + 1)
  let mon := if t > next then mon + 1 else mon
  let first ← arrayAt cdm mon
  return (mon + 1, t - first)

/-- The branch of `datevec` on `t == 0`: `yp`, `mo` and `d` of the day count `t`. -/
def calendarDate (t : Int) : Except Fault (Int × Int × Int) :=
  if t = 0 then
    .ok (0, 0, 0)
  else
    let y := 400 * t / 146097
    let ts := t - daysBeforeYear y
    let y' := if ts ≤ 0 then y - 1 else y
    let t' := if ts ≤ 0 then t - daysBeforeYear (y - 1) else ts
    match toInt y' with
    | .error e => .error e
    | .ok iy =>
      let leap : Bool := (Int.tmod iy 4 = 0 ∧ Int.tmod iy 100 ≠ 0) ∨ Int.tmod iy 400 = 0
      match monthAndDay (if leap then cdml else cdm0) t' with
      | .error e => .error e
      | .ok (mo, d) => .ok (y', mo, d)

/-- What a call of `datevec` leaves behind: the six reference parameters, and in `cout`
the value that was written to `std::cout` after the text
`Error in datevec: Date number out of range: `, if the call wrote that line. -/
structure DateVec where
  year : Int
  month : Int
  day : Int
  hour : Int
  minute : Int
  second : Int
  cout : Option ℚ
  deriving DecidableEq

/-- Function `MeteomaticsApiClient::datevec`. -/
def datevec (time : ℚ) : Except Fault DateVec :=
  if |time| > tmax then
    .ok ⟨0, 0, 0, 0, 0, 0, some time⟩
  else
    match timeOfDay time with
    | (t, h, mi, s) =>
      match calendarDate t with
      | .error e => .error e
      | .ok (yp, mo, d) => .ok ⟨yp, mo, d, h, mi, s, none⟩

/-- Character of the decimal digit `d`. -/
def digitChar (d : Nat) : Char := Char.ofNat (48 + d)

/-- Decimal digits of `n`, the most significant first; `fuel` bounds their number. -/
def decimalDigits : Nat → Nat → List Char
  | 0, _ => []
  | fuel + 1, n =>
    if n < 10 then [digitChar n] else decimalDigits fuel (n / 10) ++ [digitChar (n % 10)]

/-- Text that `operator<<` writes for an `int`. -/
def showInt (n : Int) : List Char :=
  if n < 0 then '-' :: decimalDigits (n.natAbs + 1) n.natAbs
  else decimalDigits (n.natAbs + 1) n.natAbs

/-- Text that `ss << std::setw(w) << std::setfill('0') << n` appends for an `int`: the
digits of `n`, preceded by as many `'0'` as it takes to reach the width `w`. -/
def putInt (w : Nat) (n : Int) : List Char :=
  List.replicate (w - (showInt n).length) '0' ++ showInt n

/-- Function `MeteomaticsApiClient::getIsoTimeStr`.  The two `std::setprecision` of the
source have no effect on the text of an `int`. -/
def getIsoTimeStr (year month day hour min sec : Int) : String :=
  String.mk (putInt 4 year ++ '-' :: putInt 2 month ++ '-' :: putInt 2 day ++ 'T' ::
    putInt 2 hour ++ ':' :: putInt 2 min ++ ':' :: putInt 2 sec ++ ['Z'])

/-- Function `MeteomaticsApiClient::convDateIso8601`: the six `double` fields of `datevec`
are converted to the `int` parameters of `getIsoTimeStr`. -/
def convDateIso8601 (date : ℚ) : Except Fault String := do
  let r ← datevec date
  let year ← toInt r.year
  let month ← toInt r.month
  let day ← toInt r.day
  let hour ← toInt r.hour
  let min ← toInt r.minute
  let sec ← toInt r.second
  return getIsoTimeStr year month day hour min sec

/-- Leap-year rule of the Gregorian calendar: divisible by 4 and not by 100, or
divisible by 400. -/
def isLeapYear (y : Int) : Bool := (y % 4 = 0 ∧ y % 100 ≠ 0) ∨ y % 400 = 0

/-- Length of the month `m` of a year. -/
def monthLength (leap : Bool) (m : Int) : Int :=
  if m = 2 then (if leap then 29 else 28)
  else if m = 4 ∨ m = 6 ∨ m = 9 ∨ m = 11 then 30 else 31

/-- Days of a year before its month `m`: the lengths of the months `1` to `m - 1`. -/
def daysBeforeMonth (leap : Bool) (m : Int) : Int :=
  ((List.range (m.toNat - 1)).map (fun (i : Nat) => monthLength leap ((i : Int) + 1))).sum

/-- Whether the month search of `datevec` returns, for the day `t` of a year, a month
and a day of that month that count `t` days from the start of the year. -/
def monthAndDayOk (leap : Bool) (t : Int) : Bool :=
  match monthAndDay (if leap then cdml else cdm0) t with
  | .ok (m, d) =>
    decide (1 ≤ m ∧ m ≤ 12 ∧ 1 ≤ d ∧ d ≤ monthLength leap m ∧ daysBeforeMonth leap m + d = t)
  | .error _ => false

/-- A month and a day of it in the year `y` of the Gregorian calendar. -/
def IsGregorianDate (y m d : Int) : Prop :=
  1 ≤ m ∧ m ≤ 12 ∧ 1 ≤ d ∧ d ≤ monthLength (isLeapYear y) m

/-- Serial day of the day `d` of the month `m` of the year `y`:
`365*y + ceil(y/4) - ceil(y/100) + ceil(y/400)` days before the year, the days of the year
before the month, and `d`. -/
def gregorianDayNumber (y m d : Int) : Int :=
  365 * y + ⌈(y : ℚ) / 4⌉ - ⌈(y : ℚ) / 100⌉ + ⌈(y : ℚ) / 400⌉
    + daysBeforeMonth (isLeapYear y) m + d

/-- The form `YYYY-MM-DDThh:mm:ssZ`: 20 characters, decimal digits at the positions of
the year, month, day, hour, minute and second, `-` at the indices 4 and 7, `T` at 10,
`:` at 13 and 16, `Z` at 19. -/
def IsIsoTimeStr (s : String) : Prop :=
  s.length = 20 ∧
  (∀ i ∈ [0, 1, 2, 3, 5, 6, 8, 9, 11, 12, 14, 15, 17, 18],
    (s.data[i]?).any Char.isDigit = true) ∧
  s.data[4]? = some '-' ∧ s.data[7]? = some '-' ∧ s.data[10]? = some 'T' ∧
  s.data[13]? = some ':' ∧ s.data[16]? = some ':' ∧ s.data[19]? = some 'Z'

instance (s : String) : Decidable (IsIsoTimeStr s) := by
  unfold IsIsoTimeStr; infer_instance

/-! ## The strings of a request -/

/-- Signed addition `a + b` of two `int`, which is undefined when the sum is outside the
range of `int`. -/
def addInt (a b : Int) : Except Fault Int :=
  if -2 ^ 31 ≤ a + b ∧ a + b < 2 ^ 31 then .ok (a + b) else .error .overflow

/-- Function `MeteomaticsApiClient::getTimeStepStr`.  The stream `ss` receives, one after
the other, the text of each `if` whose condition holds; the sum `hour+min+sec` is an
`int` sum, evaluated from the left. -/
def getTimeStepStr (year month day hour min sec : Int) : Except Fault String :=
  match addInt hour min with
  | .error e => .error e
  | .ok hm =>
    match addInt hm sec with
    | .error e => .error e
    | .ok hms =>
      let ss : List Char :=
        (if year > 0 then showInt year ++ ['Y'] else [])
          ++ (if month > 0 then showInt month ++ ['M'] else [])
          ++ (if day > 0 then showInt day ++ ['D'] else [])
          ++ (if hms > 0 then ['T'] else [])
          ++ (if hour > 0 then showInt hour ++ ['H'] else [])
          ++ (if min > 0 then showInt min ++ ['M'] else [])
          ++ (if sec > 0 then showInt sec ++ ['S'] else [])
      if ss = [] then .ok "0D" else .ok (String.mk ss)

/-- Body of the loop of the point overload of `createLatLonListString`:
`ss << lats[i] << ',' << lons[i]; if (i < numLat-1) ss << "+";`, the subtraction being a
`size_t` one.  The text of a `double` under `operator<<` is given by `showDouble`. -/
def latLonItem (showDouble : Nat → List Char) (sep : Char) (lats lons : List Nat) (i : Nat)
    (ss : List Char) : Except Fault (List Char) := do
  let lat ← index lats i
  let lon ← index lons i
  let ss := ss ++ showDouble lat ++ [','] ++ showDouble lon
  if i < (lats.length + sizeModulus - 1) % sizeModulus then pure (ss ++ [sep]) else pure ss

/-- Result of `createLatLonListString`: the returned string and the text written to
`std::cout`. -/
structure LatLonListString where
  value : String
  cout : String
  deriving DecidableEq, Repr

/-- Function `createLatLonListString(lats, lons)`, the overload for points. -/
def createLatLonListString (showDouble : Nat → List Char) (lats lons : List Nat) :
    Except Fault LatLonListString :=
  if lons.length ≠ lats.length then
    .ok ⟨"", "Received different number of coordinates for lat and lon.\n"⟩
  else
    match forLoop (latLonItem showDouble '+' lats lons) lats.length 0 [] with
    | .error e => .error e
    | .ok ss => .ok ⟨String.mk ss, ""⟩

/-- Function `createLatLonListString(lats, lons, res_lat, res_lon)`, the overload for
grids. -/
def createLatLonListStringGrid (showDouble : Nat → List Char) (lats lons : List Nat)
    (res_lat res_lon : Int) : Except Fault LatLonListString :=
  if lons.length ≠ lats.length ∧ lons.length > 2 then
    .ok ⟨"", "Received different number of coordinates for lat and lon or\n"
      ++ "more than 2 coordinates. That is incompatible with grids.\n"⟩
  else
    match forLoop (latLonItem showDouble '_' lats lons) lats.length 0 [] with
    | .error e => .error e
    | .ok ss => .ok ⟨String.mk (ss ++ [':'] ++ showInt res_lat ++ ['x'] ++ showInt res_lon), ""⟩

/-- Result of `getMultiPointTimeSeries`: the returned flag and the three outputs. -/
structure GetMultiPointTimeSeriesResult where
  ok : Bool
  result : List Matrix
  times : List String
  msg : List Byte
  deriving DecidableEq, Repr

/-- Function `getMultiPointTimeSeries`, from the reply of the transport on: `mem` is the
object that `requestBinary` has filled (read position `0`), `httpReturnCode` the code it
has set and `numLats` is `lats.size()`.  Of the three outputs `result` and `msg` are
cleared first; `times` is handed to the reader as the caller passed it. -/
def getMultiPointTimeSeries (convDateIso8601 : Nat → String) (mem : MemoryClass)
    (httpReturnCode : Int) (numLats : Nat) (_result : List Matrix) (times : List String)
    (_msg : List Byte) : Except Fault GetMultiPointTimeSeriesResult :=
  if !http_code_success httpReturnCode then
    match mem.readString mem.size with
    | .error e => .error e
    | .ok (msg, _) => .ok ⟨false, [], times, msg⟩
  else if numLats = 1 then
    match readSinglePointTimeSeriesBin convDateIso8601 mem [] times with
    | .error e => .error e
    | .ok (ok, _, tmpM, times) =>
      if !ok then .ok ⟨false, [], times, []⟩ else .ok ⟨true, [tmpM], times, []⟩
  else
    match readMultiPointTimeSeriesBin convDateIso8601 mem [] times with
    | .error e => .error e
    | .ok (ok, _, result, times) =>
      if !ok then .ok ⟨false, result, times, []⟩ else .ok ⟨true, result, times, []⟩

/-- A matrix of `a` rows with `b` columns each. -/
def HasShape (m : Matrix) (a b : Nat) : Prop :=
  m.length = a ∧ ∀ row ∈ m, row.length = b

instance (m : Matrix) (a b : Nat) : Decidable (HasShape m a b) := by
  unfold HasShape; infer_instance

/-- The number `n` written with `w` decimal digits, zeros in front. -/
def zeroPadded : Nat → Nat → List Char
  | 0, _ => []
  | w + 1, n => zeroPadded w (n / 10) ++ [digitChar (n % 10)]

/-- The time step string in the words of its description: `<year>Y` if the year is
positive, `<month>M`, `<day>D`, then `T` if any of hour, minute and second is positive,
`<hour>H`, `<min>M` and `<sec>S`, each if its number is positive. -/
def timeStepText (year month day hour min sec : Int) : List Char :=
  (if year > 0 then showInt year ++ ['Y'] else [])
    ++ (if month > 0 then showInt month ++ ['M'] else [])
    ++ (if day > 0 then showInt day ++ ['D'] else [])
    ++ (if hour > 0 ∨ min > 0 ∨ sec > 0 then ['T'] else [])
    ++ (if hour > 0 then showInt hour ++ ['H'] else [])
    ++ (if min > 0 then showInt min ++ ['M'] else [])
    ++ (if sec > 0 then showInt sec ++ ['S'] else [])

/-! ## Theorems -/

theorem leBytes_length (w v : Nat) : (leBytes w v).length = w := by
  induction w generalizing v with
  | zero => rfl
  | succ w ih => simp [leBytes, ih]

theorem leValue_leBytes (w v : Nat) (h : v < 256 ^ w) : leValue (leBytes w v) = v := by
  induction w generalizing v with
  | zero => simp at h; simp [leBytes, leValue, h]
  | succ w ih =>
    have h2 : v / 256 < 256 ^ w := by
      rw [Nat.div_lt_iff_lt_mul (by norm_num)]; rw [pow_succ] at h; exact h
    simp only [leBytes, leValue, ih _ h2]
    omega

theorem leValue_lt (bs : List Byte) : leValue bs < 256 ^ bs.length := by
  induction bs with
  | nil => simp [leValue]
  | cons b bs ih =>
    simp only [leValue, List.length_cons, pow_succ]
    have := b.isLt
    omega

theorem leBytes_leValue (bs : List Byte) : leBytes bs.length (leValue bs) = bs := by
  induction bs with
  | nil => rfl
  | cons b bs ih =>
    have hb := b.isLt
    have h1 : (b.val + 256 * leValue bs) % 256 = b.val := by omega
    have h2 : (b.val + 256 * leValue bs) / 256 = leValue bs := by omega
    simp only [leValue, List.length_cons, leBytes, h1, h2, ih]

theorem Unread.length_eq {m : MemoryClass} {bs : List Byte} (h : Unread m bs) :
    m.readPos + bs.length = m.mem.length := by
  obtain ⟨_, h2, h3⟩ := h
  rw [← h3, List.length_drop]; omega

theorem operatorShr_full {α : Type} (w : Nat) (put : Nat → α) (m : MemoryClass) (t : α)
    (hsize : m.mem.length < sizeModulus) (h : m.readPos + w ≤ m.mem.length) :
    m.operatorShr w put t = .ok ({ mem := m.mem, readPos := m.readPos + w },
      put (leValue ((m.mem.drop m.readPos).take w))) := by
  have hmod : (m.readPos + w) % sizeModulus = m.readPos + w := Nat.mod_eq_of_lt (by omega)
  simp [MemoryClass.operatorShr, hmod, h, Nat.not_lt.mpr h]

theorem operatorShr_short {α : Type} (w : Nat) (put : Nat → α) (m : MemoryClass) (t : α)
    (hw : m.readPos + w < sizeModulus) (h : m.mem.length < m.readPos + w) :
    m.operatorShr w put t = .ok (m, t) := by
  have hmod : (m.readPos + w) % sizeModulus = m.readPos + w := Nat.mod_eq_of_lt hw
  simp [MemoryClass.operatorShr, hmod, h]

theorem read_unread {α : Type} (w : Nat) (put : Nat → α) (m : MemoryClass) (t : α) (v : Nat)
    (rest : List Byte) (h : Unread m (leBytes w v ++ rest)) (hv : v < 256 ^ w) :
    m.read w put t = .ok ({ mem := m.mem, readPos := m.readPos + w }, put v, w)
      ∧ Unread { mem := m.mem, readPos := m.readPos + w } rest := by
  have hlen := h.length_eq
  obtain ⟨h1, h2, h3⟩ := h
  simp only [List.length_append, leBytes_length] at hlen
  have htake : (m.mem.drop m.readPos).take w = leBytes w v := by
    rw [h3, List.take_append_of_le_length (by simp [leBytes_length])]
    rw [List.take_of_length_le (by simp [leBytes_length])]
  constructor
  · have hs : m.mem.length < sizeModulus := by unfold sizeModulus; omega
    simp [MemoryClass.read, operatorShr_full w put m t hs (by omega), htake,
      leValue_leBytes w v hv, bind, Except.bind, pure, Except.pure]
  · refine ⟨h1, by simp; omega, ?_⟩
    show List.drop (m.readPos + w) m.mem = rest
    rw [← List.drop_drop, h3, List.drop_append_of_le_length (by simp [leBytes_length])]
    simp [leBytes_length]

theorem peek_unread {α : Type} (w : Nat) (put : Nat → α) (m : MemoryClass) (t : α) (v : Nat)
    (rest : List Byte) (h : Unread m (leBytes w v ++ rest)) (hv : v < 256 ^ w) :
    m.readWithoutProceed w put t = .ok (m, put v, w) := by
  have hlen := h.length_eq
  obtain ⟨h1, h2, h3⟩ := h
  simp only [List.length_append, leBytes_length] at hlen
  have htake : (m.mem.drop m.readPos).take w = leBytes w v := by
    rw [h3, List.take_append_of_le_length (by simp [leBytes_length])]
    rw [List.take_of_length_le (by simp [leBytes_length])]
  have hs : m.mem.length < sizeModulus := by unfold sizeModulus; omega
  have hw : w % sizeModulus = w := Nat.mod_eq_of_lt (by unfold sizeModulus; omega)
  have hp : (m.readPos + w + sizeModulus - w) % sizeModulus = m.readPos := by
    have : m.readPos + w + sizeModulus - w = m.readPos + sizeModulus := by omega
    rw [this, Nat.add_mod_right]; exact Nat.mod_eq_of_lt (by unfold sizeModulus; omega)
  simp [MemoryClass.readWithoutProceed, operatorShr_full w put m t hs (by omega), htake,
    leValue_leBytes w v hv, bind, Except.bind, pure, Except.pure, hw, hp]

theorem read_short {α : Type} (w : Nat) (put : Nat → α) (m : MemoryClass) (t : α)
    (bs : List Byte) (h : Unread m bs) (hw : w < 2 ^ 63) (hlt : bs.length < w) :
    m.read w put t = .ok (m, t, w) := by
  have hlen := h.length_eq
  obtain ⟨h1, h2, h3⟩ := h
  simp [MemoryClass.read, operatorShr_short w put m t (by unfold sizeModulus; omega) (by omega),
    bind, Except.bind, pure, Except.pure]

theorem readString_noWrap (m : MemoryClass) (n : Nat) (hsize : m.mem.length < sizeModulus)
    (hp : m.readPos ≤ m.mem.length) (hn : m.readPos + n < sizeModulus) :
    m.readString n = .ok ((m.mem.drop m.readPos).take (min n (m.mem.length - m.readPos)),
      { mem := m.mem, readPos := m.readPos + min n (m.mem.length - m.readPos) }) := by
  have hmod : (m.readPos + n) % sizeModulus = m.readPos + n := Nat.mod_eq_of_lt hn
  have hpm : m.readPos % sizeModulus = m.readPos := Nat.mod_eq_of_lt (by omega)
  unfold MemoryClass.readString
  simp only [hmod, hpm]
  by_cases hc : m.readPos + n > m.mem.length
  · have h1 : (m.mem.length + sizeModulus - m.readPos) % sizeModulus
        = m.mem.length - m.readPos := by
      have : m.mem.length + sizeModulus - m.readPos
          = (m.mem.length - m.readPos) + sizeModulus := by omega
      rw [this, Nat.add_mod_right]; exact Nat.mod_eq_of_lt (by omega)
    have h2 : min n (m.mem.length - m.readPos) = m.mem.length - m.readPos := by omega
    have h3 : (m.readPos + (m.mem.length - m.readPos)) % sizeModulus
        = m.readPos + (m.mem.length - m.readPos) := Nat.mod_eq_of_lt (by omega)
    simp [hc, h1, h2, h3]
    omega
  · have h2 : min n (m.mem.length - m.readPos) = n := by omega
    simp [hc, h2, hmod]

theorem toInt32_small (n : Nat) (h : n < 2 ^ 31) : toInt32 n = (n : Int) := by
  have h1 : n % 2 ^ 32 = n := Nat.mod_eq_of_lt (by omega)
  unfold toInt32
  rw [h1, if_pos h]

theorem toInt32_toNat (n : Nat) (h : n < 2 ^ 31) : (toInt32 n).toNat = n := by
  simp [toInt32_small n h]

theorem index_mid {α : Type} (pre suf : List α) (x : α) :
    index (pre ++ x :: suf) pre.length = .ok x := by
  have h : (pre ++ x :: suf)[pre.length]? = some x := by
    rw [List.getElem?_append_right (le_refl _)]; simp
  simp only [index, h]

theorem set_mid {α : Type} (pre suf : List α) (x y : α) :
    (pre ++ x :: suf).set pre.length y = pre ++ y :: suf := by
  simp

theorem assign_mid {α : Type} (pre suf : List α) (x y : α) :
    assign (pre ++ x :: suf) pre.length y = .ok (pre ++ y :: suf) := by
  simp [assign]

theorem singlePointValue_step (pre suf : Matrix) (done tail : List Nat) (c v : Nat)
    (m : MemoryClass) (rest : List Byte) (h : Unread m (leBytes 8 v ++ rest))
    (hv : v < 2 ^ 64) :
    singlePointValue pre.length done.length (m, pre ++ (done ++ c :: tail) :: suf)
        = .ok ({ mem := m.mem, readPos := m.readPos + 8 }, pre ++ (done ++ v :: tail) :: suf)
      ∧ Unread { mem := m.mem, readPos := m.readPos + 8 } rest := by
  obtain ⟨hr, hu⟩ := read_unread 8 id m c v rest h (by omega)
  refine ⟨?_, hu⟩
  simp only [singlePointValue, index_mid, hr, bind, Except.bind, pure, Except.pure, set_mid, id]

theorem singlePoint_values (pre suf : Matrix) (tail : List Nat) :
    ∀ (vs done : List Nat) (m : MemoryClass) (rest : List Byte),
      Unread m (vs.flatMap (leBytes 8) ++ rest) → (∀ v ∈ vs, v < 2 ^ 64) →
      ∃ m', forLoop (singlePointValue pre.length) vs.length done.length
          (m, pre ++ (done ++ (List.replicate vs.length 0 ++ tail)) :: suf)
            = .ok (m', pre ++ (done ++ (vs ++ tail)) :: suf)
        ∧ Unread m' rest ∧ m'.mem = m.mem := by
  intro vs
  induction vs with
  | nil =>
    intro done m rest h _
    exact ⟨m, by simp [forLoop], by simpa using h, rfl⟩
  | cons v vs ih =>
    intro done m rest h hv
    have hu : Unread m (leBytes 8 v ++ (vs.flatMap (leBytes 8) ++ rest)) := by
      simpa [List.flatMap_cons, List.append_assoc] using h
    obtain ⟨hs, hu'⟩ := singlePointValue_step pre suf done (List.replicate vs.length 0 ++ tail)
      0 v m _ hu (hv v (by simp))
    obtain ⟨m', h1, h2, h3⟩ := ih (done ++ [v]) _ rest hu' (fun x hx => hv x (by simp [hx]))
    refine ⟨m', ?_, h2, h3⟩
    simp only [List.length_cons, forLoop, List.replicate_succ, List.cons_append, hs, bind,
      Except.bind]
    simpa using h1

theorem unread_end {m : MemoryClass} {buf : List Byte} (h : Unread m []) (hm : m.mem = buf) :
    m = { mem := buf, readPos := buf.length } := by
  have hl := h.length_eq
  simp only [List.length_nil, Nat.add_zero] at hl
  cases m with
  | mk mem pos =>
    simp only at hm hl
    subst hm
    simp [hl]

theorem vectorOfSize_nat (n : Nat) : vectorOfSize (n : Int) = .ok (List.replicate n 0) := by
  unfold vectorOfSize
  rw [if_neg (by omega)]
  simp

theorem resize_nat {α : Type} (v : List α) (n : Nat) (fill : α) :
    resize v (n : Int) fill = .ok (v.take n ++ List.replicate (n - v.length) fill) := by
  unfold resize
  rw [if_neg (by omega)]
  simp

theorem singlePointRecord_step (conv : Nat → String) (P : Nat) (hP : P < 2 ^ 31)
    (r : DateRecord) (hr : r.Valid) (hlen : r.values.length = P)
    (doneRows sufRows : Matrix) (doneTimes sufTimes : List String) (s : String)
    (hd : doneTimes.length = doneRows.length) (np : Option Nat)
    (m : MemoryClass) (rest : List Byte) (h : Unread m (encodeRecord P r ++ rest)) :
    ∃ m', singlePointRecord conv doneRows.length
        (m, np, doneRows ++ List.replicate P 0 :: sufRows, doneTimes ++ s :: sufTimes)
          = .ok (m', some P, doneRows ++ r.values :: sufRows,
              doneTimes ++ conv r.date :: sufTimes)
      ∧ Unread m' rest ∧ m'.mem = m.mem := by
  have h1 : Unread m (leBytes 4 P ++ (leBytes 8 r.date ++ (r.values.flatMap (leBytes 8) ++ rest))) := by
    simpa [encodeRecord, List.append_assoc] using h
  obtain ⟨e1, u1⟩ := read_unread 4 some m np P _ h1 (by omega)
  obtain ⟨e2, u2⟩ := read_unread 8 some _ none r.date _ u1 (by have := hr.1; omega)
  obtain ⟨m', e3, u3, hm⟩ := singlePoint_values doneRows sufRows [] r.values [] _ rest u2 hr.2
  refine ⟨m', ?_, u3, hm⟩
  have ea : assign (doneTimes ++ s :: sufTimes) doneRows.length (conv r.date)
      = .ok (doneTimes ++ conv r.date :: sufTimes) := by
    rw [← hd]; exact assign_mid _ _ _ _
  rw [hlen] at e3
  simp only [List.length_nil, List.nil_append, List.append_nil] at e3
  simp only [singlePointRecord, e1, e2, use, ea, toInt32_toNat P hP, e3, bind, Except.bind,
    pure, Except.pure]

theorem singlePoint_records (conv : Nat → String) (P : Nat) (hP : P < 2 ^ 31)
    (sufRows : Matrix) (sufTimes : List String) :
    ∀ (rs : List DateRecord) (doneRows : Matrix) (doneTimes : List String)
      (m : MemoryClass) (rest : List Byte),
      (∀ r ∈ rs, r.Valid ∧ r.values.length = P) →
      doneTimes.length = doneRows.length →
      Unread m (rs.flatMap (encodeRecord P) ++ rest) →
      ∃ m', forLoop (singlePointRecord conv) rs.length doneRows.length
          (m, some P, doneRows ++ (List.replicate rs.length (List.replicate P 0) ++ sufRows),
            doneTimes ++ (List.replicate rs.length "" ++ sufTimes))
            = .ok (m', some P, doneRows ++ (rs.map DateRecord.values ++ sufRows),
                doneTimes ++ (rs.map (fun r => conv r.date) ++ sufTimes))
        ∧ Unread m' rest ∧ m'.mem = m.mem := by
  intro rs
  induction rs with
  | nil =>
    intro doneRows doneTimes m rest _ _ h
    exact ⟨m, by simp [forLoop], by simpa using h, rfl⟩
  | cons r rs ih =>
    intro doneRows doneTimes m rest hv hd h
    have hu : Unread m (encodeRecord P r ++ (rs.flatMap (encodeRecord P) ++ rest)) := by
      simpa [List.flatMap_cons, List.append_assoc] using h
    obtain ⟨hr, hl⟩ := hv r (by simp)
    obtain ⟨m1, e1, u1, hm1⟩ := singlePointRecord_step conv P hP r hr hl doneRows
      (List.replicate rs.length (List.replicate P 0) ++ sufRows) doneTimes
      (List.replicate rs.length "" ++ sufTimes) "" hd (some P) m _ hu
    obtain ⟨m', e2, u2, hm2⟩ := ih (doneRows ++ [r.values]) (doneTimes ++ [conv r.date]) m1 rest
      (fun x hx => hv x (by simp [hx])) (by simp [hd]) u1
    refine ⟨m', ?_, u2, hm2.trans hm1⟩
    simp only [List.length_cons, forLoop, List.replicate_succ, List.cons_append, e1, bind,
      Except.bind]
    simpa using e2

/-- A complete single-point reply with at least one record is decoded in full:
the rows are the value lists of the records, the times their converted dates, and
the cursor ends at the end of the buffer. -/
theorem readSinglePoint_complete (conv : Nat → String) (P : Nat) (records : List DateRecord)
    (hN : 1 ≤ records.length) (hN' : records.length < 2 ^ 31) (hP : P < 2 ^ 31)
    (hv : ∀ r ∈ records, r.Valid ∧ r.values.length = P)
    (hsize : (encodeSinglePoint P records).length < 2 ^ 63) :
    readSinglePointTimeSeriesBin conv { mem := encodeSinglePoint P records, readPos := 0 } [] []
      = .ok (true,
          { mem := encodeSinglePoint P records, readPos := (encodeSinglePoint P records).length },
          records.map DateRecord.values, records.map (fun r => conv r.date)) := by
  obtain ⟨r, rs, rfl⟩ : ∃ r rs, records = r :: rs := by
    cases records with
    | nil => simp at hN
    | cons r rs => exact ⟨r, rs, rfl⟩
  generalize hbuf : encodeSinglePoint P (r :: rs) = buf at hsize ⊢
  have h0 : Unread { mem := buf, readPos := 0 }
      (leBytes 4 (r :: rs).length ++ (r :: rs).flatMap (encodeRecord P)) :=
    ⟨hsize, Nat.zero_le _, by simp [← hbuf, encodeSinglePoint]⟩
  obtain ⟨e1, u1⟩ := read_unread 4 some _ none _ _ h0 (by omega)
  have u1' : Unread { mem := buf, readPos := 0 + 4 }
      (leBytes 4 P ++ (leBytes 8 r.date ++ r.values.flatMap (leBytes 8)
        ++ rs.flatMap (encodeRecord P))) := by
    simpa [List.flatMap_cons, encodeRecord, List.append_assoc] using u1
  have e2 := peek_unread 4 some _ none P _ u1' (by omega)
  obtain ⟨m', e3, u3, hm⟩ := singlePoint_records conv P hP [] [] (r :: rs) [] [] _ [] hv rfl
    (by simpa using u1)
  have hfin := unread_end u3 hm
  subst hfin
  simp only [List.nil_append, List.length_nil, List.append_nil] at e3
  unfold readSinglePointTimeSeriesBin
  rw [e1]
  simp only [bind, Except.bind]
  rw [e2]
  simp only [use, vectorOfSize_nat, resize_nat, toInt32_small P hP, toInt32_small _ hN', bind,
    Except.bind, pure, Except.pure, Int.toNat_ofNat, List.take_nil, List.nil_append,
    List.length_nil, Nat.sub_zero, Nat.zero_add]
  rw [e3]

theorem reserve_nat (n : Nat) : reserve (n : Int) = .ok () := by
  unfold reserve
  rw [if_neg (by omega)]

theorem multiPoint_values :
    ∀ (vs acc : List Nat) (k : Nat) (m : MemoryClass) (rest : List Byte),
      Unread m (vs.flatMap (leBytes 8) ++ rest) → (∀ v ∈ vs, v < 2 ^ 64) →
      ∃ m', forLoop multiPointValue vs.length k (m, acc) = .ok (m', acc ++ vs)
        ∧ Unread m' rest ∧ m'.mem = m.mem := by
  intro vs
  induction vs with
  | nil =>
    intro acc k m rest h _
    exact ⟨m, by simp [forLoop], by simpa using h, rfl⟩
  | cons v vs ih =>
    intro acc k m rest h hv
    have hu : Unread m (leBytes 8 v ++ (vs.flatMap (leBytes 8) ++ rest)) := by
      simpa [List.flatMap_cons, List.append_assoc] using h
    obtain ⟨e1, u1⟩ := read_unread 8 some m none v _ hu (by have := hv v (by simp); omega)
    obtain ⟨m', e2, u2, hm⟩ := ih (acc ++ [v]) (k + 1) _ rest u1 (fun x hx => hv x (by simp [hx]))
    refine ⟨m', ?_, u2, hm⟩
    simp only [List.length_cons, forLoop, multiPointValue, e1, use, bind, Except.bind, pure,
      Except.pure]
    simpa using e2

theorem multiPointRecord_step (conv : Nat → String) (j : Nat) (r : DateRecord) (hr : r.Valid)
    (hlen : r.values.length < 2 ^ 31) (tmpMat : Matrix) (times : List String)
    (m : MemoryClass) (rest : List Byte)
    (h : Unread m (encodeRecord r.values.length r ++ rest)) :
    ∃ m', multiPointRecord conv j (m, tmpMat, times)
          = .ok (m', tmpMat ++ [r.values], times ++ [conv r.date])
      ∧ Unread m' rest ∧ m'.mem = m.mem := by
  have h1 : Unread m (leBytes 4 r.values.length
      ++ (leBytes 8 r.date ++ (r.values.flatMap (leBytes 8) ++ rest))) := by
    simpa [encodeRecord, List.append_assoc] using h
  obtain ⟨e1, u1⟩ := read_unread 4 some m none _ _ h1 (by omega)
  obtain ⟨e2, u2⟩ := read_unread 8 some _ none r.date _ u1 (by have := hr.1; omega)
  obtain ⟨m', e3, u3, hm⟩ := multiPoint_values r.values [] 0 _ rest u2 hr.2
  refine ⟨m', ?_, u3, hm⟩
  simp only [List.nil_append] at e3
  simp only [multiPointRecord, e1, e2, use, toInt32_small _ hlen, reserve_nat, Int.toNat_ofNat,
    e3, bind, Except.bind, pure, Except.pure]

theorem multiPoint_records (conv : Nat → String) :
    ∀ (rs : List DateRecord) (tmpMat : Matrix) (times : List String) (k : Nat)
      (m : MemoryClass) (rest : List Byte),
      (∀ r ∈ rs, r.Valid ∧ r.values.length < 2 ^ 31) →
      Unread m (rs.flatMap (fun r => encodeRecord r.values.length r) ++ rest) →
      ∃ m', forLoop (multiPointRecord conv) rs.length k (m, tmpMat, times)
            = .ok (m', tmpMat ++ rs.map DateRecord.values,
                times ++ rs.map (fun r => conv r.date))
        ∧ Unread m' rest ∧ m'.mem = m.mem := by
  intro rs
  induction rs with
  | nil =>
    intro tmpMat times k m rest _ h
    exact ⟨m, by simp [forLoop], by simpa using h, rfl⟩
  | cons r rs ih =>
    intro tmpMat times k m rest hv h
    have hu : Unread m (encodeRecord r.values.length r
        ++ (rs.flatMap (fun r => encodeRecord r.values.length r) ++ rest)) := by
      simpa [List.flatMap_cons, List.append_assoc] using h
    obtain ⟨hr, hl⟩ := hv r (by simp)
    obtain ⟨m1, e1, u1, hm1⟩ := multiPointRecord_step conv k r hr hl tmpMat times m _ hu
    obtain ⟨m', e2, u2, hm2⟩ := ih (tmpMat ++ [r.values]) (times ++ [conv r.date]) (k + 1) m1 rest
      (fun x hx => hv x (by simp [hx])) u1
    refine ⟨m', ?_, u2, hm2.trans hm1⟩
    simp only [List.length_cons, forLoop, e1, bind, Except.bind]
    simpa using e2

theorem multiPointCoord_step (conv : Nat → String) (i : Nat) (rs : List DateRecord)
    (hT : rs.length < 2 ^ 31) (hv : ∀ r ∈ rs, r.Valid ∧ r.values.length < 2 ^ 31)
    (results : List Matrix) (times : List String) (m : MemoryClass) (rest : List Byte)
    (h : Unread m (encodeCoord rs ++ rest)) :
    ∃ m', multiPointCoord conv i (m, results, times)
          = .ok (m', results ++ [rs.map DateRecord.values],
              times ++ rs.map (fun r => conv r.date))
      ∧ Unread m' rest ∧ m'.mem = m.mem := by
  have h1 : Unread m (leBytes 4 rs.length
      ++ (rs.flatMap (fun r => encodeRecord r.values.length r) ++ rest)) := by
    simpa [encodeCoord, List.append_assoc] using h
  obtain ⟨e1, u1⟩ := read_unread 4 some m none _ _ h1 (by omega)
  obtain ⟨m', e2, u2, hm⟩ := multiPoint_records conv rs [] times 0 _ rest hv u1
  refine ⟨m', ?_, u2, hm⟩
  simp only [List.nil_append] at e2
  simp only [multiPointCoord, e1, use, toInt32_small _ hT, reserve_nat, Int.toNat_ofNat, e2,
    bind, Except.bind, pure, Except.pure]

theorem multiPoint_coords (conv : Nat → String) :
    ∀ (cs : List (List DateRecord)) (results : List Matrix) (times : List String) (k : Nat)
      (m : MemoryClass) (rest : List Byte),
      (∀ c ∈ cs, c.length < 2 ^ 31 ∧ ∀ r ∈ c, r.Valid ∧ r.values.length < 2 ^ 31) →
      Unread m (cs.flatMap encodeCoord ++ rest) →
      ∃ m', forLoop (multiPointCoord conv) cs.length k (m, results, times)
            = .ok (m', results ++ cs.map (fun c => c.map DateRecord.values),
                times ++ cs.flatMap (fun c => c.map (fun r => conv r.date)))
        ∧ Unread m' rest ∧ m'.mem = m.mem := by
  intro cs
  induction cs with
  | nil =>
    intro results times k m rest _ h
    exact ⟨m, by simp [forLoop], by simpa using h, rfl⟩
  | cons c cs ih =>
    intro results times k m rest hv h
    have hu : Unread m (encodeCoord c ++ (cs.flatMap encodeCoord ++ rest)) := by
      simpa [List.flatMap_cons, List.append_assoc] using h
    obtain ⟨hT, hr⟩ := hv c (by simp)
    obtain ⟨m1, e1, u1, hm1⟩ := multiPointCoord_step conv k c hT hr results times m _ hu
    obtain ⟨m', e2, u2, hm2⟩ := ih (results ++ [c.map DateRecord.values])
      (times ++ c.map (fun r => conv r.date)) (k + 1) m1 rest
      (fun x hx => hv x (by simp [hx])) u1
    refine ⟨m', ?_, u2, hm2.trans hm1⟩
    simp only [List.length_cons, forLoop, e1, bind, Except.bind]
    simpa [List.flatMap_cons, List.append_assoc] using e2

theorem slice_flatten {α : Type} :
    ∀ (L : List (List α)) (k : Nat) (hk : k < L.length),
      ((L.flatMap id).drop ((L.take k).map List.length).sum).take (L[k]).length = L[k] := by
  intro L
  induction L with
  | nil => intro k hk; simp at hk
  | cons l L ih =>
    intro k hk
    cases k with
    | zero => simp
    | succ k =>
      have hk' : k < L.length := by simpa using hk
      simpa [List.flatMap_cons, List.drop_append] using ih k hk'

theorem slice_times {α β : Type} (f : α → β) (coords : List (List α)) (k : Nat)
    (hk : k < coords.length) :
    ((coords.flatMap (fun c => c.map f)).drop ((coords.take k).map List.length).sum).take
        (coords[k]).length = (coords[k]).map f := by
  have h := slice_flatten (coords.map (fun c => c.map f)) k (by simpa using hk)
  simpa [List.flatMap_map, ← List.map_take, Function.comp_def] using h

theorem length_times {α β : Type} (f : α → β) (coords : List (List α)) :
    (coords.flatMap (fun c => c.map f)).length = (coords.map List.length).sum := by
  induction coords with
  | nil => rfl
  | cons c cs ih => simp [List.flatMap_cons, ih]

theorem readMultiPoint_run (conv : Nat → String) (coords : List (List DateRecord))
    (hC : coords.length < 2 ^ 31)
    (hv : ∀ c ∈ coords, c.length < 2 ^ 31 ∧ ∀ r ∈ c, r.Valid ∧ r.values.length < 2 ^ 31)
    (hsize : (encodeMultiPoint coords).length < 2 ^ 63) :
    readMultiPointTimeSeriesBin conv { mem := encodeMultiPoint coords, readPos := 0 } [] []
      = .ok (true,
          { mem := encodeMultiPoint coords, readPos := (encodeMultiPoint coords).length },
          coords.map (fun c => c.map DateRecord.values),
          coords.flatMap (fun c => c.map (fun r => conv r.date))) := by
  generalize hbuf : encodeMultiPoint coords = buf at hsize ⊢
  have h0 : Unread { mem := buf, readPos := 0 }
      (leBytes 4 coords.length ++ (coords.flatMap encodeCoord ++ [])) :=
    ⟨hsize, Nat.zero_le _, by simp [← hbuf, encodeMultiPoint]⟩
  obtain ⟨e1, u1⟩ := read_unread 4 some _ none _ _ h0 (by omega)
  obtain ⟨m', e2, u2, hm⟩ := multiPoint_coords conv coords [] [] 0 _ [] hv u1
  have hfin := unread_end u2 hm
  subst hfin
  simp only [List.nil_append] at e2
  unfold readMultiPointTimeSeriesBin
  rw [e1]
  simp only [use, toInt32_small _ hC, Int.toNat_ofNat, bind, Except.bind, pure, Except.pure]
  rw [e2]

theorem readString_unread (m : MemoryClass) (bs rest : List Byte)
    (h : Unread m (bs ++ rest)) :
    m.readString bs.length = .ok (bs, { mem := m.mem, readPos := m.readPos + bs.length })
      ∧ Unread { mem := m.mem, readPos := m.readPos + bs.length } rest := by
  have hlen := h.length_eq
  obtain ⟨h1, h2, h3⟩ := h
  simp only [List.length_append] at hlen
  have hmin : min bs.length (m.mem.length - m.readPos) = bs.length := by omega
  constructor
  · rw [readString_noWrap m bs.length (by unfold sizeModulus; omega) h2
      (by unfold sizeModulus; omega), hmin, h3]
    simp
  · refine ⟨h1, by simp; omega, ?_⟩
    show List.drop (m.readPos + bs.length) m.mem = rest
    rw [← List.drop_drop, h3]
    simp

theorem readEach_unread :
    ∀ (vs old : List Nat) (m : MemoryClass) (rest : List Byte),
      old.length = vs.length → Unread m (vs.flatMap (leBytes 8) ++ rest) →
      (∀ v ∈ vs, v < 2 ^ 64) →
      ∃ m', readEach m old = .ok (m', vs) ∧ Unread m' rest ∧ m'.mem = m.mem := by
  intro vs
  induction vs with
  | nil =>
    intro old m rest ho h _
    have : old = [] := List.length_eq_zero.mp (by simpa using ho)
    subst this
    exact ⟨m, rfl, by simpa using h, rfl⟩
  | cons v vs ih =>
    intro old m rest ho h hv
    obtain ⟨o, os, rfl⟩ : ∃ o os, old = o :: os := by
      cases old with
      | nil => simp at ho
      | cons o os => exact ⟨o, os, rfl⟩
    have hu : Unread m (leBytes 8 v ++ (vs.flatMap (leBytes 8) ++ rest)) := by
      simpa [List.flatMap_cons, List.append_assoc] using h
    obtain ⟨e1, u1⟩ := read_unread 8 id m o v _ hu (by have := hv v (by simp); omega)
    obtain ⟨m', e2, u2, hm⟩ := ih os _ rest (by simpa using ho) u1
      (fun x hx => hv x (by simp [hx]))
    refine ⟨m', ?_, u2, hm⟩
    simp only [readEach, e1, e2, bind, Except.bind, pure, Except.pure, id]

theorem gridFloatValue_step (pre suf : Matrix) (done tail : List Nat) (c f : Nat)
    (m : MemoryClass) (rest : List Byte) (h : Unread m (leBytes 4 f ++ rest))
    (hf : f < 2 ^ 32) :
    gridFloatValue pre.length done.length (m, pre ++ (done ++ c :: tail) :: suf)
        = .ok ({ mem := m.mem, readPos := m.readPos + 4 },
            pre ++ (done ++ floatToDouble f :: tail) :: suf)
      ∧ Unread { mem := m.mem, readPos := m.readPos + 4 } rest := by
  obtain ⟨hr, hu⟩ := read_unread 4 some m none f rest h (by omega)
  refine ⟨?_, hu⟩
  simp only [gridFloatValue, index_mid, assign_mid, hr, use, bind, Except.bind, pure,
    Except.pure, set_mid]

theorem gridFloat_values (pre suf : Matrix) :
    ∀ (fs done : List Nat) (m : MemoryClass) (rest : List Byte),
      Unread m (fs.flatMap (leBytes 4) ++ rest) → (∀ f ∈ fs, f < 2 ^ 32) →
      ∃ m', forLoop (gridFloatValue pre.length) fs.length done.length
          (m, pre ++ (done ++ List.replicate fs.length 0) :: suf)
            = .ok (m', pre ++ (done ++ fs.map floatToDouble) :: suf)
        ∧ Unread m' rest ∧ m'.mem = m.mem := by
  intro fs
  induction fs with
  | nil =>
    intro done m rest h _
    exact ⟨m, by simp [forLoop], by simpa using h, rfl⟩
  | cons f fs ih =>
    intro done m rest h hf
    have hu : Unread m (leBytes 4 f ++ (fs.flatMap (leBytes 4) ++ rest)) := by
      simpa [List.flatMap_cons, List.append_assoc] using h
    obtain ⟨hs, hu'⟩ := gridFloatValue_step pre suf done (List.replicate fs.length 0) 0 f m _ hu
      (hf f (by simp))
    obtain ⟨m', h1, h2, h3⟩ := ih (done ++ [floatToDouble f]) _ rest hu'
      (fun x hx => hf x (by simp [hx]))
    refine ⟨m', ?_, h2, h3⟩
    simp only [List.length_cons, forLoop, List.replicate_succ, hs, bind, Except.bind]
    simpa using h1

theorem gridFloat_rows (numLon : Nat) :
    ∀ (rows doneRows : Matrix) (m : MemoryClass) (rest : List Byte),
      (∀ row ∈ rows, row.length = numLon ∧ ∀ f ∈ row, f < 2 ^ 32) →
      Unread m (encodeGridValues 4 rows ++ rest) →
      ∃ m', forLoop (fun i => forLoop (gridFloatValue i) numLon 0) rows.length doneRows.length
          (m, doneRows ++ List.replicate rows.length (List.replicate numLon 0))
            = .ok (m', doneRows ++ rows.map (fun row => row.map floatToDouble))
        ∧ Unread m' rest ∧ m'.mem = m.mem := by
  intro rows
  induction rows with
  | nil =>
    intro doneRows m rest _ h
    exact ⟨m, by simp [forLoop], by simpa [encodeGridValues] using h, rfl⟩
  | cons row rows ih =>
    intro doneRows m rest hv h
    have hu : Unread m (row.flatMap (leBytes 4) ++ (encodeGridValues 4 rows ++ rest)) := by
      simpa [encodeGridValues, List.flatMap_cons, List.append_assoc] using h
    obtain ⟨hl, hf⟩ := hv row (by simp)
    obtain ⟨m1, e1, u1, hm1⟩ := gridFloat_values doneRows
      (List.replicate rows.length (List.replicate numLon 0)) row [] m _ hu hf
    obtain ⟨m', e2, u2, hm2⟩ := ih (doneRows ++ [row.map floatToDouble]) m1 rest
      (fun x hx => hv x (by simp [hx])) u1
    refine ⟨m', ?_, u2, hm2.trans hm1⟩
    rw [hl] at e1
    simp only [List.length_nil, List.nil_append] at e1
    simp only [List.length_cons, forLoop, List.replicate_succ, e1, bind, Except.bind]
    simpa using e2

theorem read_next {α : Type} (w : Nat) (put : Nat → α) (m : MemoryClass) (t : α) (v : Nat)
    (rest : List Byte) (h : Unread m (leBytes w v ++ rest)) (hv : v < 256 ^ w) :
    ∃ m', m.read w put t = .ok (m', put v, w) ∧ Unread m' rest ∧ m'.mem = m.mem :=
  ⟨_, (read_unread w put m t v rest h hv).1, (read_unread w put m t v rest h hv).2, rfl⟩

theorem readString_next (m : MemoryClass) (bs rest : List Byte) (h : Unread m (bs ++ rest)) :
    ∃ m', m.readString bs.length = .ok (bs, m') ∧ Unread m' rest ∧ m'.mem = m.mem :=
  ⟨_, (readString_unread m bs rest h).1, (readString_unread m bs rest h).2, rfl⟩

/-- A complete MBG version-2 reply with 32-bit values is decoded in full, whatever
the outputs held before: both axes as transmitted and every value widened, in
row-major order. -/
theorem readGrid_float (fd : Nat) (A B : List Nat) (V results0 : Matrix) (lats0 lons0 : List Nat)
    (hfd : fd < 2 ^ 64) (hA : A.length < 2 ^ 31) (hB : B.length < 2 ^ 31)
    (hAv : ∀ a ∈ A, a < 2 ^ 64) (hBv : ∀ b ∈ B, b < 2 ^ 64)
    (hVr : V.length = A.length)
    (hVc : ∀ row ∈ V, row.length = B.length ∧ ∀ f ∈ row, f < 2 ^ 32)
    (hsize : (encodeMBG2 4 fd A B (encodeGridValues 4 V)).length < 2 ^ 63) :
    readGridAndMatrixFromMBG2Format
        { mem := encodeMBG2 4 fd A B (encodeGridValues 4 V), readPos := 0 } results0 lats0 lons0
      = .ok { ok := true,
              mem := { mem := encodeMBG2 4 fd A B (encodeGridValues 4 V),
                       readPos := (encodeMBG2 4 fd A B (encodeGridValues 4 V)).length },
              results := V.map (fun row => row.map floatToDouble),
              lats := A, lons := B, cout := "" } := by
  generalize hbuf : encodeMBG2 4 fd A B (encodeGridValues 4 V) = buf at hsize ⊢
  have h0 : Unread { mem := buf, readPos := 0 }
      (magicMBG ++ (leBytes 4 2 ++ (leBytes 4 4 ++ (leBytes 4 1 ++ (leBytes 4 0 ++ (leBytes 4 1
        ++ (leBytes 8 fd ++ (leBytes 4 A.length ++ (A.flatMap (leBytes 8)
        ++ (leBytes 4 B.length ++ (B.flatMap (leBytes 8)
        ++ (encodeGridValues 4 V ++ [])))))))))))) :=
    ⟨hsize, Nat.zero_le _, by simp [← hbuf, encodeMBG2, List.append_assoc]⟩
  obtain ⟨m0, e0, u0, hm0⟩ := readString_next _ _ _ h0
  obtain ⟨m1, e1, u1, hm1⟩ := read_next 4 some m0 none _ _ u0 (by norm_num)
  obtain ⟨m2, e2, u2, hm2⟩ := read_next 4 some m1 none _ _ u1 (by norm_num)
  obtain ⟨m3, e3, u3, hm3⟩ := read_next 4 some m2 none _ _ u2 (by norm_num)
  obtain ⟨m4, e4, u4, hm4⟩ := read_next 4 some m3 none _ _ u3 (by norm_num)
  obtain ⟨m5, e5, u5, hm5⟩ := read_next 4 some m4 none _ _ u4 (by norm_num)
  obtain ⟨m6, e6, u6, hm6⟩ := read_next 8 some m5 none _ _ u5 (by omega)
  obtain ⟨m7, e7, u7, hm7⟩ := read_next 4 some m6 none _ _ u6 (by omega)
  obtain ⟨m8, e8, u8, hm8⟩ := readEach_unread A
    (lats0.take A.length ++ List.replicate (A.length - lats0.length) 0) m7 _
    (by simp; omega) u7 hAv
  obtain ⟨m9, e9, u9, hm9⟩ := read_next 4 some m8 none _ _ u8 (by omega)
  obtain ⟨m10, e10, u10, hm10⟩ := readEach_unread B
    (lons0.take B.length ++ List.replicate (B.length - lons0.length) 0) m9 _
    (by simp; omega) u9 hBv
  obtain ⟨m11, e11, u11, hm11⟩ := gridFloat_rows B.length V [] m10 [] hVc u10
  have hfin := unread_end u11
    (by rw [hm11, hm10, hm9, hm8, hm7, hm6, hm5, hm4, hm3, hm2, hm1, hm0])
  subst hfin
  simp only [List.nil_append, List.length_nil, hVr] at e11
  have hmagic : magicMBG.length = 4 := rfl
  rw [hmagic] at e0
  unfold readGridAndMatrixFromMBG2Format
  rw [e0]
  simp only [bind, Except.bind, ne_eq, not_true_eq_false, ite_false, if_false]
  rw [e1]; simp only []
  rw [e2]; simp only []
  rw [e3]; simp only []
  rw [e4]; simp only []
  rw [e5]; simp only []
  rw [e6]; simp only []
  have t0 : toInt32 0 = 0 := by decide
  have t1 : toInt32 1 = 1 := by decide
  have t2 : toInt32 2 = 2 := by decide
  have t4 : toInt32 4 = 4 := by decide
  have hbig : ¬ ((1 : Int) > 100000) := by decide
  simp only [use, pure, Except.pure, t0, t1, t2, t4, hbig, not_true_eq_false, if_false,
    ite_false, if_true, ite_true]
  rw [e7]; simp only [toInt32_small _ hA, resize_nat, vectorOfSize_nat]
  rw [e8]; simp only []
  rw [e9]; simp only [toInt32_small _ hB, resize_nat, vectorOfSize_nat]
  rw [e10]
  simp only [List.take_nil, List.nil_append, List.length_nil, Nat.sub_zero]
  rw [e11]

theorem forLoop_add {σ : Type} (body : Nat → σ → Except Fault σ) :
    ∀ (a b i : Nat) (s : σ),
      forLoop body (a + b) i s = (forLoop body a i s >>= forLoop body b (i + a)) := by
  intro a
  induction a with
  | zero => intro b i s; simp [forLoop, bind, Except.bind]
  | succ a ih =>
    intro b i s
    rw [Nat.succ_add]
    simp only [forLoop, bind, Except.bind]
    cases h : body i s with
    | error e => rfl
    | ok s1 =>
      have := ih b (i + 1) s1
      simp only [bind, Except.bind] at this
      simp only [this]
      have hi : i + 1 + a = i + (a + 1) := by omega
      rw [hi]

theorem set_getElem_same {α : Type} :
    ∀ (l : List α) (j : Nat) (hj : j < l.length), l.set j (l[j]) = l
  | _ :: _, 0, _ => rfl
  | a :: l, j + 1, hj => by
    have := set_getElem_same l j (by simpa using hj)
    simp [List.set, this]

theorem singlePointValue_short (pre suf : Matrix) (row : List Nat) (j : Nat)
    (hj : j < row.length) (m : MemoryClass) (frag : List Byte) (h : Unread m frag)
    (hfrag : frag.length < 8) :
    singlePointValue pre.length j (m, pre ++ row :: suf) = .ok (m, pre ++ row :: suf) := by
  have hr := read_short 8 id m row[j] frag h (by norm_num) hfrag
  have hidx : index row j = .ok row[j] := by
    simp [index, List.getElem?_eq_getElem hj]
  simp only [singlePointValue, index_mid, hidx, hr, bind, Except.bind, pure, Except.pure,
    set_getElem_same, set_mid]

theorem singlePoint_values_short (pre suf : Matrix) (row : List Nat) (m : MemoryClass)
    (frag : List Byte) (h : Unread m frag) (hfrag : frag.length < 8) :
    ∀ (n j : Nat), j + n ≤ row.length →
      forLoop (singlePointValue pre.length) n j (m, pre ++ row :: suf)
        = .ok (m, pre ++ row :: suf) := by
  intro n
  induction n with
  | zero => intro j _; rfl
  | succ n ih =>
    intro j hj
    simp only [forLoop, singlePointValue_short pre suf row j (by omega) m frag h hfrag, bind,
      Except.bind]
    exact ih (j + 1) (by omega)

theorem length_values (vs : List Nat) : (vs.flatMap (leBytes 8)).length = 8 * vs.length := by
  induction vs with
  | nil => rfl
  | cons v vs ih => simp [List.flatMap_cons, leBytes_length, ih]; omega

theorem take_values :
    ∀ (vs : List Nat) (c : Nat), c < 8 * vs.length →
      ∃ frag : List Byte, frag.length = c % 8 ∧
        (vs.flatMap (leBytes 8)).take c = (vs.take (c / 8)).flatMap (leBytes 8) ++ frag := by
  intro vs
  induction vs with
  | nil => intro c hc; simp at hc
  | cons v vs ih =>
    intro c hc
    by_cases h8 : c < 8
    · refine ⟨(leBytes 8 v).take c, by simp [leBytes_length]; omega, ?_⟩
      have h0 : c / 8 = 0 := by omega
      rw [h0, List.flatMap_cons, List.take_append_of_le_length (by simp [leBytes_length]; omega)]
      simp
    · have hc' : c - 8 < 8 * vs.length := by simp at hc; omega
      obtain ⟨frag, hf, ht⟩ := ih (c - 8) hc'
      refine ⟨frag, by omega, ?_⟩
      have hq : c / 8 = (c - 8) / 8 + 1 := by omega
      rw [hq, List.take_succ_cons, List.flatMap_cons, List.flatMap_cons, List.take_append_eq_append_take,
        List.take_of_length_le (by simp [leBytes_length]; omega), leBytes_length, ht,
        List.append_assoc]

theorem singlePointRecord_cut (conv : Nat → String) (P : Nat) (hP : P < 2 ^ 31)
    (r : DateRecord) (hr : r.Valid) (hlen : r.values.length = P) (q : Nat) (hq : q ≤ P)
    (doneRows sufRows : Matrix) (doneTimes sufTimes : List String) (s : String)
    (hd : doneTimes.length = doneRows.length) (np : Option Nat)
    (m : MemoryClass) (frag : List Byte) (hfrag : frag.length < 8)
    (h : Unread m (leBytes 4 P ++ (leBytes 8 r.date
      ++ ((r.values.take q).flatMap (leBytes 8) ++ frag)))) :
    ∃ m', singlePointRecord conv doneRows.length
        (m, np, doneRows ++ List.replicate P 0 :: sufRows, doneTimes ++ s :: sufTimes)
          = .ok (m', some P,
              doneRows ++ (r.values.take q ++ List.replicate (P - q) 0) :: sufRows,
              doneTimes ++ conv r.date :: sufTimes)
      ∧ Unread m' frag ∧ m'.mem = m.mem := by
  obtain ⟨e1, u1⟩ := read_unread 4 some m np P _ h (by omega)
  obtain ⟨e2, u2⟩ := read_unread 8 some _ none r.date _ u1 (by have := hr.1; omega)
  have hq' : (r.values.take q).length = q := by simp [hlen, hq]
  obtain ⟨m', e3, u3, hm⟩ := singlePoint_values doneRows sufRows (List.replicate (P - q) 0)
    (r.values.take q) [] _ frag u2 (fun v hv => hr.2 v (List.mem_of_mem_take hv))
  refine ⟨m', ?_, u3, hm⟩
  have ea : assign (doneTimes ++ s :: sufTimes) doneRows.length (conv r.date)
      = .ok (doneTimes ++ conv r.date :: sufTimes) := by
    rw [← hd]; exact assign_mid _ _ _ _
  have e4 := singlePoint_values_short doneRows sufRows
    (r.values.take q ++ List.replicate (P - q) 0) m' frag u3 hfrag (P - q) q
    (by simp [hq'])
  rw [hq'] at e3
  simp only [List.length_nil, List.nil_append] at e3
  have hrep : List.replicate P (0 : Nat) = List.replicate q 0 ++ List.replicate (P - q) 0 := by
    rw [← List.replicate_add]; congr 1; omega
  have hsplit : forLoop (singlePointValue doneRows.length) P 0
      (⟨m.mem, m.readPos + 4 + 8⟩, doneRows ++ List.replicate P 0 :: sufRows)
      = .ok (m', doneRows ++ (r.values.take q ++ List.replicate (P - q) 0) :: sufRows) := by
    have hPq : P = q + (P - q) := by omega
    rw [hPq, forLoop_add, ← hPq, hrep]
    simp only [bind, Except.bind]
    rw [e3]
    simpa using e4
  simp only [singlePointRecord, e1, e2, use, ea, toInt32_toNat P hP, hsplit, bind, Except.bind,
    pure, Except.pure]

theorem peek_first (P : Nat) (init : List DateRecord) (X : List Byte) :
    ∃ tail, init.flatMap (encodeRecord P) ++ (leBytes 4 P ++ X) = leBytes 4 P ++ tail := by
  cases init with
  | nil => exact ⟨X, by simp⟩
  | cons r rs =>
    exact ⟨leBytes 8 r.date ++ (r.values.flatMap (leBytes 8)
      ++ (rs.flatMap (encodeRecord P) ++ (leBytes 4 P ++ X))),
      by simp only [List.flatMap_cons, encodeRecord, List.append_assoc]⟩

/-- C1. A single-point reply that announces no date (`numDates = 0`, a buffer of four
bytes) is not decoded to an empty result: the peek of `numParams` finds no bytes,
the variable stays unwritten and its value is then used to size the rows. -/
theorem readSinglePoint_noDates (conv : Nat → String) (P : Nat) :
    readSinglePointTimeSeriesBin conv { mem := encodeSinglePoint P [], readPos := 0 } [] []
      = .error .indeterminate := by
  rfl

set_option maxRecDepth 100000 in
/-- C3. With 64-bit values the inner loop of the grid reader runs to the number of
latitudes: a grid of one latitude and two longitudes with the values `1, 2` comes
out as `[[1, 0]]`, and the grid of three latitudes and two longitudes writes
outside its rows. -/
theorem readGrid_double_wrongBound :
    (readGridAndMatrixFromMBG2Format
        { mem := encodeMBG2 8 0 [doubleOfNat 10] [doubleOfNat 100, doubleOfNat 110]
            (encodeGridValues 8 [[doubleOfNat 1, doubleOfNat 2]]),
          readPos := 0 } [] [] []).map (fun r => (r.ok, r.results))
      = .ok (true, [[doubleOfNat 1, 0]])
    ∧ readGridAndMatrixFromMBG2Format
        { mem := encodeMBG2 8 0 [doubleOfNat 10, doubleOfNat 20, doubleOfNat 30]
            [doubleOfNat 100, doubleOfNat 110]
            (encodeGridValues 8 [[doubleOfNat 1, doubleOfNat 2], [doubleOfNat 3, doubleOfNat 4],
              [doubleOfNat 5, doubleOfNat 6]]),
          readPos := 0 } [] [] []
      = .error .outOfRange := by
  constructor <;> decide

/-- C4. Round trip of a grid with 32-bit values through `getGrid`: for latitudes `A`,
longitudes `B` and an `A.length x B.length` matrix `V` of floats laid out as an MBG
version-2 reply with precision 4, the call returns the latitudes reversed, the
longitudes unchanged and the rows of `V` (each value widened to `double`) in
reverse order, the order inside a row unchanged. -/
theorem getGrid_roundtrip_float (httpReturnCode : Int) (fd : Nat) (A B : List Nat)
    (V gridResult0 : Matrix) (lats0 lons0 : List Nat) (msg0 : List Byte)
    (hcode : http_code_success httpReturnCode = true)
    (hfd : fd < 2 ^ 64) (hA : A.length < 2 ^ 31) (hB : B.length < 2 ^ 31)
    (hAv : ∀ a ∈ A, a < 2 ^ 64) (hBv : ∀ b ∈ B, b < 2 ^ 64)
    (hVr : V.length = A.length)
    (hVc : ∀ row ∈ V, row.length = B.length ∧ ∀ f ∈ row, f < 2 ^ 32)
    (hsize : (encodeMBG2 4 fd A B (encodeGridValues 4 V)).length < 2 ^ 63) :
    getGrid { mem := encodeMBG2 4 fd A B (encodeGridValues 4 V), readPos := 0 } httpReturnCode
        gridResult0 lats0 lons0 msg0
      = .ok { ok := true,
              gridResult := (V.map (fun row => row.map floatToDouble)).reverse,
              latGridPts := A.reverse, lonGridPts := B, msg := [] } := by
  have h := readGrid_float fd A B V [] [] [] hfd hA hB hAv hBv hVr hVc hsize
  unfold getGrid
  rw [hcode, h]
  rfl

/-- Witness of C4: latitudes `[10, 20, 30]`, longitudes `[100, 110]` and the values
`[[1, 2], [3, 4], [5, 6]]` come back as `[30, 20, 10]`, `[100, 110]` and
`[[5, 6], [3, 4], [1, 2]]`. -/
theorem getGrid_roundtrip_float_witness :
    getGrid
        { mem := encodeMBG2 4 0 [doubleOfNat 10, doubleOfNat 20, doubleOfNat 30]
            [doubleOfNat 100, doubleOfNat 110]
            (encodeGridValues 4 [[floatOfNat 1, floatOfNat 2], [floatOfNat 3, floatOfNat 4],
              [floatOfNat 5, floatOfNat 6]]),
          readPos := 0 } 200 [] [] [] []
      = .ok { ok := true,
              gridResult := [[doubleOfNat 5, doubleOfNat 6], [doubleOfNat 3, doubleOfNat 4],
                [doubleOfNat 1, doubleOfNat 2]],
              latGridPts := [doubleOfNat 30, doubleOfNat 20, doubleOfNat 10],
              lonGridPts := [doubleOfNat 100, doubleOfNat 110], msg := [] } :=
  getGrid_roundtrip_float 200 0 [doubleOfNat 10, doubleOfNat 20, doubleOfNat 30]
    [doubleOfNat 100, doubleOfNat 110]
    [[floatOfNat 1, floatOfNat 2], [floatOfNat 3, floatOfNat 4], [floatOfNat 5, floatOfNat 6]]
    [] [] [] [] (by decide) (by decide) (by decide) (by decide) (by decide) (by decide)
    (by decide) (by decide) (by decide)

/-- C6 (counterexample). A read of four bytes from a buffer of three and a read of
four bytes from a buffer that holds them hand the same output value and the same
return value to the caller. -/
theorem read_short_counterexample :
    MemoryClass.read 4 id { mem := [1, 2, 3], readPos := 0 } 7
        = .ok ({ mem := [1, 2, 3], readPos := 0 }, 7, 4)
    ∧ MemoryClass.read 4 id { mem := [7, 0, 0, 0], readPos := 0 } 7
        = .ok ({ mem := [7, 0, 0, 0], readPos := 4 }, 7, 4) := by
  decide

/-- C6 (amended). When fewer than `sizeof(T)` bytes remain after a read position that
lies inside the buffer, `read<T>` does not fail: it returns `sizeof(T)` as it
always does and leaves the output, the read position and the buffer as they
were. -/
theorem read_short_unchanged {α : Type} (typeSize : Nat) (put : Nat → α) (self : MemoryClass)
    (t : α) (hpos : self.readPos ≤ self.mem.length) (hsize : self.mem.length < 2 ^ 63)
    (hw : typeSize < 2 ^ 63) (h : self.mem.length - self.readPos < typeSize) :
    self.read typeSize put t = .ok (self, t, typeSize) := by
  simp [MemoryClass.read,
    operatorShr_short typeSize put self t (by unfold sizeModulus; omega) (by omega),
    bind, Except.bind, pure, Except.pure]

/-- Witness of C6 (amended): three bytes in the buffer, a read of four. -/
theorem read_short_unchanged_witness :
    MemoryClass.read 4 id { mem := [1, 2, 3], readPos := 0 } 7
      = .ok ({ mem := [1, 2, 3], readPos := 0 }, 7, 4) :=
  read_short_unchanged 4 id { mem := [1, 2, 3], readPos := 0 } 7
    (by decide) (by decide) (by decide) (by decide)

/-- C7. With at least `sizeof(T)` bytes after the read position, `read<T>` stores in
its output the value whose little-endian representation is those bytes, moves the
position forward by `sizeof(T)`, returns `sizeof(T)` and leaves the buffer as it
was; for four bytes `b0 .. b3` the `int32_t` value is the two's complement of
`b0 + 256 b1 + 65536 b2 + 16777216 b3`. -/
theorem read_full {α : Type} (typeSize : Nat) (put : Nat → α) (self : MemoryClass) (t : α)
    (hsize : self.mem.length < sizeModulus)
    (h : self.readPos + typeSize ≤ self.mem.length) :
    self.read typeSize put t
        = .ok ({ mem := self.mem, readPos := self.readPos + typeSize },
            put (leValue ((self.mem.drop self.readPos).take typeSize)), typeSize)
    ∧ leBytes typeSize (leValue ((self.mem.drop self.readPos).take typeSize))
        = (self.mem.drop self.readPos).take typeSize
    ∧ ∀ b0 b1 b2 b3 : Byte, (self.mem.drop self.readPos).take typeSize = [b0, b1, b2, b3] →
        toInt32 (leValue ((self.mem.drop self.readPos).take typeSize))
          = if b0.val + 256 * b1.val + 65536 * b2.val + 16777216 * b3.val < 2 ^ 31
            then ((b0.val + 256 * b1.val + 65536 * b2.val + 16777216 * b3.val : Nat) : Int)
            else ((b0.val + 256 * b1.val + 65536 * b2.val + 16777216 * b3.val : Nat) : Int)
              - 2 ^ 32 := by
  refine ⟨?_, ?_, ?_⟩
  · simp [MemoryClass.read, operatorShr_full typeSize put self t hsize h, bind, Except.bind,
      pure, Except.pure]
  · have hl : ((self.mem.drop self.readPos).take typeSize).length = typeSize := by
      simp [List.length_take, List.length_drop]; omega
    have := leBytes_leValue ((self.mem.drop self.readPos).take typeSize)
    rwa [hl] at this
  · intro b0 b1 b2 b3 hb
    rw [hb]
    have h0 := b0.isLt
    have h1 := b1.isLt
    have h2 := b2.isLt
    have h3 := b3.isLt
    have hv : leValue [b0, b1, b2, b3]
        = b0.val + 256 * b1.val + 65536 * b2.val + 16777216 * b3.val := by
      simp only [leValue]; omega
    have hm : (b0.val + 256 * b1.val + 65536 * b2.val + 16777216 * b3.val) % 2 ^ 32
        = b0.val + 256 * b1.val + 65536 * b2.val + 16777216 * b3.val :=
      Nat.mod_eq_of_lt (by omega)
    rw [hv]
    unfold toInt32
    rw [hm]

/-- Witness of C7: the four bytes `FF FF FF FF` followed by one more byte, read as a
32-bit integer. -/
theorem read_full_witness :
    MemoryClass.read 4 toInt32 { mem := [255, 255, 255, 255, 1], readPos := 0 } 0
      = .ok ({ mem := [255, 255, 255, 255, 1], readPos := 4 }, -1, 4) :=
  (read_full 4 toInt32 { mem := [255, 255, 255, 255, 1], readPos := 0 } 0
    (by decide) (by decide)).1

/-- C8. A peek with fewer than `sizeof(T)` bytes remaining moves the read position:
from position 4 of a buffer of four bytes, `readWithoutProceed<int32_t>` leaves the
output unwritten, as `read` does there, and sets the position to 0. -/
theorem readWithoutProceed_short_moves :
    MemoryClass.readWithoutProceed 4 some { mem := [1, 0, 0, 0], readPos := 4 } none
        = .ok ({ mem := [1, 0, 0, 0], readPos := 0 }, none, 4)
    ∧ MemoryClass.read 4 some { mem := [1, 0, 0, 0], readPos := 4 } none
        = .ok ({ mem := [1, 0, 0, 0], readPos := 4 }, none, 4) := by
  decide

/-- C9. One peek on a freshly constructed object puts the read position beyond the
buffer: the read copies nothing, the position is decremented all the same and
wraps to `2 ^ 64 - 4`, with a buffer of length 0. -/
theorem readWithoutProceed_fresh_position :
    MemoryClass.readWithoutProceed 4 some MemoryClass.init none
        = .ok ({ mem := [], readPos := 2 ^ 64 - 4 }, none, 4)
    ∧ ¬ (2 ^ 64 - 4 ≤ MemoryClass.init.mem.length) := by
  decide

/-- C10. A requested size that makes `readPos + _size` wrap is not clamped: at
position 1 of a buffer of two bytes, `readString(2 ^ 64 - 1)` does not return the one
remaining byte. -/
theorem readString_wrap :
    MemoryClass.readString { mem := [1, 2], readPos := 1 } (2 ^ 64 - 1) = .error .outOfRange
    ∧ MemoryClass.readString { mem := [1, 2], readPos := 1 } 5
        = .ok ([2], { mem := [1, 2], readPos := 2 }) := by
  decide

/-! ## Rounding to `double` -/

theorem roundHalfEven_error (q : ℚ) : |(roundHalfEven q : ℚ) - q| ≤ 1 / 2 := by
  have h1 := Int.floor_le q
  have h2 := Int.lt_floor_add_one q
  unfold roundHalfEven
  split_ifs with a b c
  · rw [abs_le]; constructor <;> linarith
  · rw [abs_le]; push_cast; constructor <;> linarith
  · rw [abs_le]; constructor <;> linarith
  · rw [abs_le]; push_cast; constructor <;> linarith

/-- Rounding to `double` moves a number by at most half a unit in its last place. -/
theorem roundDouble_error (x : ℚ) :
    |roundDouble x - x| ≤ |x| / 2 ^ 53 + 1 / 2 ^ 1075 := by
  unfold roundDouble
  split_ifs with h0
  · rw [h0]; norm_num
  · generalize hu : max (Int.log 2 |x|) (-1022) - 52 = u
    have hpos : (0 : ℚ) < 2 ^ u := zpow_pos (by norm_num) u
    have e1 : (roundHalfEven (x / 2 ^ u) : ℚ) * 2 ^ u - x
        = ((roundHalfEven (x / 2 ^ u) : ℚ) - x / 2 ^ u) * 2 ^ u := by
      field_simp
    rw [e1, abs_mul, abs_of_pos hpos]
    have h2 := roundHalfEven_error (x / 2 ^ u)
    have h3 : |(roundHalfEven (x / 2 ^ u) : ℚ) - x / 2 ^ u| * 2 ^ u ≤ 1 / 2 * 2 ^ u :=
      mul_le_mul_of_nonneg_right h2 (le_of_lt hpos)
    have hx : (0 : ℚ) < |x| := abs_pos.mpr h0
    have h4 : (1 : ℚ) / 2 * 2 ^ u ≤ |x| / 2 ^ 53 + 1 / 2 ^ 1075 := by
      rcases le_total (Int.log 2 |x|) (-1022) with hc | hc
      · have hu' : u = -((1074 : ℕ) : ℤ) := by rw [← hu, max_eq_right hc]; norm_num
        have e : (1 : ℚ) / 2 * 2 ^ u = 1 / 2 ^ 1075 := by
          rw [hu', zpow_neg, zpow_natCast, pow_succ (2 : ℚ) 1074]
          generalize (2 : ℚ) ^ 1074 = c
          rw [one_div, one_div, mul_inv, mul_comm]
        rw [e]
        have : (0 : ℚ) ≤ |x| / 2 ^ 53 := by positivity
        linarith
      · have hu' : u = Int.log 2 |x| + (-53 + 1) := by rw [← hu, max_eq_left hc]; ring
        have hlog : (2 : ℚ) ^ (Int.log 2 |x|) ≤ |x| := by
          have := Int.zpow_log_le_self (b := 2) (by norm_num) hx
          exact_mod_cast this
        have e : (1 : ℚ) / 2 * 2 ^ u = 2 ^ (Int.log 2 |x|) / 2 ^ 53 := by
          rw [hu', zpow_add₀ (by norm_num), zpow_add₀ (by norm_num), zpow_neg, zpow_one]
          rw [show (2 : ℚ) ^ (53 : Int) = 2 ^ 53 by norm_cast]
          field_simp
        rw [e]
        have h5 : (2 : ℚ) ^ (Int.log 2 |x|) / 2 ^ 53 ≤ |x| / 2 ^ 53 :=
          div_le_div_of_nonneg_right hlog (by positivity)
        have : (0 : ℚ) ≤ 1 / 2 ^ 1075 := by positivity
        linarith
    linarith

theorem roundDouble_error_le (x : ℚ) : |roundDouble x - x| ≤ |x| / 2 ^ 53 + 1 / 1024 := by
  have h := roundDouble_error x
  have e : (2 : ℚ) ^ 10 ≤ 2 ^ 1075 := pow_le_pow_right₀ (by norm_num) (by norm_num)
  have e10 : (2 : ℚ) ^ 10 = 1024 := by norm_num
  have p : (0 : ℚ) < 2 ^ 10 := by positivity
  have := one_div_le_one_div_of_le p e
  rw [e10] at this
  linarith

/-- Evaluation of `roundDouble` on a positive number of the normal range, from its
binade. -/
theorem roundDouble_eq (x : ℚ) (k : Int) (h0 : 0 < x) (h1 : (2 : ℚ) ^ k ≤ x)
    (h2 : x < (2 : ℚ) ^ (k + 1)) (hk : -1022 ≤ k) :
    roundDouble x = roundHalfEven (x / 2 ^ (k - 52)) * 2 ^ (k - 52) := by
  have hx : (0 : ℚ) < |x| := abs_pos.mpr (ne_of_gt h0)
  rw [← abs_of_pos h0] at h1 h2
  have hlog : Int.log 2 |x| = k := by
    apply le_antisymm
    · have := (Int.lt_zpow_iff_log_lt (b := 2) (by norm_num) hx).mp (by exact_mod_cast h2)
      omega
    · exact (Int.zpow_le_iff_le_log (b := 2) (by norm_num) hx).mp (by exact_mod_cast h1)
  unfold roundDouble
  rw [if_neg (ne_of_gt h0), hlog, max_eq_left hk]

/-- Evaluation of `roundDouble` on a negative number of the normal range, from its
binade. -/
theorem roundDouble_eq_neg (x : ℚ) (k : Int) (h0 : x < 0) (h1 : (2 : ℚ) ^ k ≤ -x)
    (h2 : -x < (2 : ℚ) ^ (k + 1)) (hk : -1022 ≤ k) :
    roundDouble x = roundHalfEven (x / 2 ^ (k - 52)) * 2 ^ (k - 52) := by
  have hx : (0 : ℚ) < |x| := abs_pos.mpr (ne_of_lt h0)
  rw [← abs_of_neg h0] at h1 h2
  have hlog : Int.log 2 |x| = k := by
    apply le_antisymm
    · have := (Int.lt_zpow_iff_log_lt (b := 2) (by norm_num) hx).mp (by exact_mod_cast h2)
      omega
    · exact (Int.zpow_le_iff_le_log (b := 2) (by norm_num) hx).mp (by exact_mod_cast h1)
  unfold roundDouble
  rw [if_neg (ne_of_lt h0), hlog, max_eq_left hk]

/-! ## The calendar conversion: the year, the month and the day -/

theorem daysBeforeYear_succ (y : Int) :
    daysBeforeYear (y + 1) = daysBeforeYear y + (if isLeapYear y then 366 else 365) := by
  simp only [daysBeforeYear, ceilDiv, isLeapYear]
  split_ifs with hl <;> simp at hl <;> omega

theorem ts_lower (t : Int) : -1 ≤ t - daysBeforeYear (400 * t / 146097) := by
  simp only [daysBeforeYear, ceilDiv]
  omega

theorem ts_upper (t : Int) :
    t - daysBeforeYear (400 * t / 146097) ≤
      (if isLeapYear (400 * t / 146097) then 366 else 365) := by
  simp only [daysBeforeYear, ceilDiv, isLeapYear]
  split_ifs with hl <;> simp at hl <;> omega

/-- The year that `datevec` settles on contains the day count, and the day of that year
is a day of it. -/
theorem year_split (t : Int) :
    let y := 400 * t / 146097
    let ts := t - daysBeforeYear y
    let y' := if ts ≤ 0 then y - 1 else y
    let t' := if ts ≤ 0 then t - daysBeforeYear (y - 1) else ts
    1 ≤ t' ∧ t' ≤ (if isLeapYear y' then 366 else 365) ∧ daysBeforeYear y' + t' = t := by
  intro y ts y' t'
  have hts : ts = t - daysBeforeYear y := rfl
  have h1 : -1 ≤ ts := ts_lower t
  have h2 : ts ≤ (if isLeapYear y then 366 else 365) := ts_upper t
  have h3 : daysBeforeYear y =
      daysBeforeYear (y - 1) + (if isLeapYear (y - 1) then 366 else 365) := by
    have h := daysBeforeYear_succ (y - 1)
    rwa [sub_add_cancel] at h
  by_cases h : ts ≤ 0
  · have e1 : y' = y - 1 := if_pos h
    have e2 : t' = t - daysBeforeYear (y - 1) := if_pos h
    rw [e1, e2]
    refine ⟨?_, ?_, by ring⟩
    · split_ifs at h3 <;> omega
    · split_ifs at h3 ⊢ <;> omega
  · have e1 : y' = y := if_neg h
    have e2 : t' = ts := if_neg h
    rw [e1, e2]
    exact ⟨by omega, h2, by omega⟩

set_option maxRecDepth 100000 in
theorem monthAndDay_leap :
    ∀ n ∈ List.range 366, monthAndDayOk true ((n : Int) + 1) = true := by
  decide

set_option maxRecDepth 100000 in
theorem monthAndDay_nonleap :
    ∀ n ∈ List.range 365, monthAndDayOk false ((n : Int) + 1) = true := by
  decide

theorem monthAndDay_spec (leap : Bool) (t : Int) (h1 : 1 ≤ t)
    (h2 : t ≤ (if leap then 366 else 365)) :
    ∃ m d, monthAndDay (if leap then cdml else cdm0) t = .ok (m, d) ∧
      1 ≤ m ∧ m ≤ 12 ∧ 1 ≤ d ∧ d ≤ monthLength leap m ∧ daysBeforeMonth leap m + d = t := by
  have key : monthAndDayOk leap t = true := by
    obtain ⟨n, rfl⟩ : ∃ n : Nat, t = (n : Int) + 1 := ⟨(t - 1).toNat, by omega⟩
    cases leap
    · exact monthAndDay_nonleap n (List.mem_range.mpr (by simp at h2; omega))
    · exact monthAndDay_leap n (List.mem_range.mpr (by simp at h2; omega))
  unfold monthAndDayOk at key
  split at key
  · rename_i m d heq
    exact ⟨m, d, heq, of_decide_eq_true key⟩
  · exact absurd key (by simp)

theorem leap_tmod (y : Int) :
    (decide ((Int.tmod y 4 = 0 ∧ Int.tmod y 100 ≠ 0) ∨ Int.tmod y 400 = 0)) = isLeapYear y := by
  unfold isLeapYear
  have e (n : Int) : Int.tmod y n = 0 ↔ y % n = 0 := by
    rw [← Int.dvd_iff_tmod_eq_zero, Int.dvd_iff_emod_eq_zero]
  simp only [e, ne_eq]

theorem toInt_ok (x : Int) (h1 : -2 ^ 31 ≤ x) (h2 : x < 2 ^ 31) : toInt x = .ok x := by
  unfold toInt
  rw [if_pos ⟨h1, h2⟩]

/-- Every day count other than `0` whose magnitude is at most `tmax + 1` is the day `d`
of the month `mo` of the year `yp` that `calendarDate` returns. -/
theorem calendarDate_spec (t : Int) (h0 : t ≠ 0) (h1 : -128849018881 ≤ t)
    (h2 : t ≤ 128849018881) :
    ∃ y m d, calendarDate t = .ok (y, m, d) ∧ 1 ≤ m ∧ m ≤ 12 ∧ 1 ≤ d ∧
      d ≤ monthLength (isLeapYear y) m ∧
      daysBeforeYear y + daysBeforeMonth (isLeapYear y) m + d = t ∧
      -400000000 ≤ y ∧ y ≤ 400000000 := by
  have hs := year_split t
  simp only at hs
  obtain ⟨hs1, hs2, hs3⟩ := hs
  generalize hy : (if t - daysBeforeYear (400 * t / 146097) ≤ 0 then 400 * t / 146097 - 1
    else 400 * t / 146097) = y at hs1 hs2 hs3
  generalize ht : (if t - daysBeforeYear (400 * t / 146097) ≤ 0
    then t - daysBeforeYear (400 * t / 146097 - 1)
    else t - daysBeforeYear (400 * t / 146097)) = t' at hs1 hs2 hs3
  have hyb : -400000000 ≤ y ∧ y ≤ 400000000 := by
    rw [← hy]; split_ifs <;> omega
  obtain ⟨m, d, hmd, hm1, hm2, hd1, hd2, hsum⟩ := monthAndDay_spec (isLeapYear y) t' hs1 hs2
  refine ⟨y, m, d, ?_, hm1, hm2, hd1, hd2, by omega, hyb.1, hyb.2⟩
  unfold calendarDate
  rw [if_neg h0]
  simp only [hy, ht]
  rw [toInt_ok y (by omega) (by omega)]
  simp only [leap_tmod, hmd]

theorem monthLength_le (leap : Bool) (m : Int) : monthLength leap m ≤ 31 := by
  unfold monthLength
  split_ifs <;> omega

/-- Totality of `calendarDate` on the accepted day counts, with the ranges of its fields. -/
theorem calendarDate_total (t : Int) (h1 : -128849018881 ≤ t) (h2 : t ≤ 128849018881) :
    ∃ y m d, calendarDate t = .ok (y, m, d) ∧ -400000000 ≤ y ∧ y ≤ 400000000 ∧
      (t ≠ 0 → 1 ≤ m ∧ m ≤ 12 ∧ 1 ≤ d ∧ d ≤ 31) ∧ (t = 0 → y = 0 ∧ m = 0 ∧ d = 0) := by
  by_cases h0 : t = 0
  · subst h0
    exact ⟨0, 0, 0, rfl, by omega, by omega, fun h => absurd rfl h, fun _ => ⟨rfl, rfl, rfl⟩⟩
  · obtain ⟨y, m, d, he, hm1, hm2, hd1, hd2, _, hy1, hy2⟩ := calendarDate_spec t h0 h1 h2
    have := monthLength_le (isLeapYear y) m
    exact ⟨y, m, d, he, hy1, hy2, fun _ => ⟨hm1, hm2, hd1, by omega⟩, fun h => absurd h h0⟩

theorem timeOfDay_int (t : Int) : timeOfDay (t : ℚ) = (t, 0, 0, 0) := by
  unfold timeOfDay
  rw [Int.floor_intCast, if_pos rfl]

theorem timeOfDay_frac (time : ℚ) (h : time ≠ ⌊time⌋) :
    timeOfDay time = (roundedSeconds time / 86400, roundedSeconds time / 3600 % 24,
      roundedSeconds time / 60 % 60, roundedSeconds time % 60) := by
  unfold timeOfDay
  rw [if_neg h]
  generalize roundedSeconds time = N
  simp only [Prod.mk.injEq]
  refine ⟨by omega, by omega, by omega, by omega⟩

/-- The rounded number of seconds of an accepted serial date: the two roundings move it
by less than five seconds. -/
theorem seconds_bounds (time : ℚ) (hb : |time| ≤ tmax) :
    -11132555231232004 ≤ roundedSeconds time ∧
      roundedSeconds time ≤ 11132555231232004 := by
  unfold roundedSeconds
  rw [abs_le] at hb
  unfold tmax at hb
  obtain ⟨h1, h2⟩ := hb
  have e1 := roundDouble_error_le (86400 * time)
  have a1 : |86400 * time| ≤ 11132555231232000 := by
    rw [abs_le]; constructor <;> linarith
  generalize roundDouble (86400 * time) = r1 at e1 ⊢
  have c1 : |86400 * time| / 2 ^ 53 ≤ 3 / 2 := by
    rw [div_le_iff₀ (by norm_num)]
    norm_num
    linarith
  have b1 : |r1 - 86400 * time| ≤ 2 := by linarith
  rw [abs_le] at b1 a1
  have e2 := roundDouble_error_le (r1 + 1 / 2)
  have a2 : |r1 + 1 / 2| ≤ 11132555231232003 := by
    rw [abs_le]; constructor <;> linarith
  generalize roundDouble (r1 + 1 / 2) = r2 at e2 ⊢
  have c2 : |r1 + 1 / 2| / 2 ^ 53 ≤ 3 / 2 := by
    rw [div_le_iff₀ (by norm_num)]
    norm_num
    linarith
  have b2 : |r2 - (r1 + 1 / 2)| ≤ 2 := by linarith
  rw [abs_le] at b2
  constructor
  · rw [Int.le_floor]
    push_cast
    linarith
  · have : ⌊r2⌋ < 11132555231232004 + 1 := by
      rw [Int.floor_lt]
      push_cast
      linarith
    omega

/-- Day count of `timeOfDay`: its magnitude is at most `tmax + 1`, and the time of day is
one. -/
theorem timeOfDay_ranges (time : ℚ) (hb : |time| ≤ tmax) :
    ∃ t h mi s, timeOfDay time = (t, h, mi, s) ∧ -128849018881 ≤ t ∧ t ≤ 128849018881 ∧
      0 ≤ h ∧ h ≤ 23 ∧ 0 ≤ mi ∧ mi ≤ 59 ∧ 0 ≤ s ∧ s ≤ 59 := by
  by_cases h : time = ⌊time⌋
  · rw [h, timeOfDay_int]
    refine ⟨_, _, _, _, rfl, ?_, ?_, by omega, by omega, by omega, by omega, by omega, by omega⟩
    · rw [abs_le] at hb
      have := hb.1
      unfold tmax at this
      rw [h] at this
      have : (-128849018880 : Int) ≤ ⌊time⌋ := by exact_mod_cast this
      omega
    · rw [abs_le] at hb
      have := hb.2
      unfold tmax at this
      rw [h] at this
      have : ⌊time⌋ ≤ (128849018880 : Int) := by exact_mod_cast this
      omega
  · rw [timeOfDay_frac time h]
    obtain ⟨b1, b2⟩ := seconds_bounds time hb
    generalize roundedSeconds time = N at b1 b2
    exact ⟨_, _, _, _, rfl, by omega, by omega, by omega, by omega, by omega, by omega,
      by omega, by omega⟩

/-- A serial date of magnitude `1` or more has a day count other than `0`. -/
theorem dayCount_ne_zero (time : ℚ) (h1 : 1 ≤ |time|) : (timeOfDay time).1 ≠ 0 := by
  by_cases h : time = ⌊time⌋
  · rw [h, timeOfDay_int]
    rw [h] at h1
    intro hz
    simp only at hz
    rw [hz] at h1
    norm_num at h1
  · rw [timeOfDay_frac time h]
    simp only
    unfold roundedSeconds
    have e1 := roundDouble_error_le (86400 * time)
    rw [abs_le] at e1
    rcases le_abs.mp h1 with hp | hn
    · have a1 : |86400 * time| = 86400 * time := abs_of_nonneg (by linarith)
      rw [a1] at e1
      have p53 : (2 : ℚ) ^ 53 = 9007199254740992 := by norm_num
      rw [p53] at e1
      generalize roundDouble (86400 * time) = r1 at e1 ⊢
      have q1 : (86400 : ℚ) ≤ r1 + 1 / 2 := by linarith
      have e2 := roundDouble_error_le (r1 + 1 / 2)
      rw [abs_le, abs_of_nonneg (by linarith), p53] at e2
      generalize roundDouble (r1 + 1 / 2) = r2 at e2 ⊢
      have : (86400 : Int) ≤ ⌊r2⌋ := by
        rw [Int.le_floor]
        push_cast
        linarith
      omega
    · have a1 : |86400 * time| = -(86400 * time) := abs_of_nonpos (by linarith)
      rw [a1] at e1
      have p53 : (2 : ℚ) ^ 53 = 9007199254740992 := by norm_num
      rw [p53] at e1
      generalize roundDouble (86400 * time) = r1 at e1 ⊢
      have q1 : r1 + 1 / 2 ≤ -86399 := by linarith
      have e2 := roundDouble_error_le (r1 + 1 / 2)
      rw [abs_le, abs_of_nonpos (by linarith), p53] at e2
      generalize roundDouble (r1 + 1 / 2) = r2 at e2 ⊢
      have : ⌊r2⌋ < -86398 := by
        rw [Int.floor_lt]
        push_cast
        linarith
      omega

theorem datevec_accept (time : ℚ) (hb : |time| ≤ tmax) :
    datevec time =
      match calendarDate (timeOfDay time).1 with
      | .error e => .error e
      | .ok (yp, mo, d) =>
        .ok ⟨yp, mo, d, (timeOfDay time).2.1, (timeOfDay time).2.2.1, (timeOfDay time).2.2.2,
          none⟩ := by
  unfold datevec
  rw [if_neg (not_lt.mpr hb)]

/-- Totality of `datevec` on the accepted serial dates, with the ranges of its fields. -/
theorem datevec_total (time : ℚ) (hb : |time| ≤ tmax) :
    ∃ y m d h mi s, datevec time = .ok ⟨y, m, d, h, mi, s, none⟩ ∧
      calendarDate (timeOfDay time).1 = .ok (y, m, d) ∧
      timeOfDay time = ((timeOfDay time).1, h, mi, s) ∧
      -400000000 ≤ y ∧ y ≤ 400000000 ∧
      ((timeOfDay time).1 ≠ 0 → 1 ≤ m ∧ m ≤ 12 ∧ 1 ≤ d ∧ d ≤ 31) ∧
      ((timeOfDay time).1 = 0 → y = 0 ∧ m = 0 ∧ d = 0) ∧
      0 ≤ h ∧ h ≤ 23 ∧ 0 ≤ mi ∧ mi ≤ 59 ∧ 0 ≤ s ∧ s ≤ 59 := by
  obtain ⟨t, h, mi, s, e, t1, t2, r⟩ := timeOfDay_ranges time hb
  obtain ⟨y, m, d, ec, y1, y2, c1, c2⟩ := calendarDate_total t t1 t2
  refine ⟨y, m, d, h, mi, s, ?_, ?_, ?_, y1, y2, ?_, ?_, r⟩
  · rw [datevec_accept time hb, e]
    simp only [ec]
  · rw [e]; exact ec
  · rw [e]
  · rw [e]; exact c1
  · rw [e]; exact c2

/-! ## The Gregorian decomposition -/

theorem ceilDiv_eq (y : Int) (n : Nat) : ceilDiv y n = ⌈(y : ℚ) / n⌉ := by
  unfold ceilDiv
  rw [← neg_neg ⌈(y : ℚ) / n⌉, ← Int.floor_neg, ← neg_div, ← Int.cast_neg,
    Rat.floor_intCast_div_natCast]

theorem gregorianDayNumber_eq (y m d : Int) :
    gregorianDayNumber y m d = daysBeforeYear y + daysBeforeMonth (isLeapYear y) m + d := by
  unfold gregorianDayNumber daysBeforeYear
  have e4 := ceilDiv_eq y 4
  have e100 := ceilDiv_eq y 100
  have e400 := ceilDiv_eq y 400
  push_cast at e4 e100 e400
  rw [← e4, ← e100, ← e400]

theorem daysBeforeYear_mono : Monotone daysBeforeYear := by
  apply monotone_int_of_le_succ
  intro y
  rw [daysBeforeYear_succ]
  split_ifs <;> omega

theorem daysBeforeMonth_succ (leap : Bool) (m : Int) (h : 1 ≤ m) :
    daysBeforeMonth leap (m + 1) = daysBeforeMonth leap m + monthLength leap m := by
  obtain ⟨k, rfl⟩ : ∃ k : Nat, m = (k : Int) + 1 := ⟨(m - 1).toNat, by omega⟩
  unfold daysBeforeMonth
  have e1 : ((k : Int) + 1 + 1).toNat - 1 = k + 1 := by omega
  have e2 : ((k : Int) + 1).toNat - 1 = k := by omega
  rw [e1, e2, List.range_succ, List.map_append, List.sum_append]
  simp

theorem daysBeforeMonth_one (leap : Bool) : daysBeforeMonth leap 1 = 0 := by
  cases leap <;> rfl

theorem monthLength_pos (leap : Bool) (m : Int) : 28 ≤ monthLength leap m := by
  unfold monthLength
  split_ifs <;> omega

theorem daysBeforeMonth_mono (leap : Bool) (m m' : Int) (h1 : 1 ≤ m) (h : m ≤ m') :
    daysBeforeMonth leap m ≤ daysBeforeMonth leap m' := by
  refine Int.le_induction (P := fun k => daysBeforeMonth leap m ≤ daysBeforeMonth leap k)
    (le_refl _) ?_ m' h
  intro k hk ih
  simp only at ih ⊢
  rw [daysBeforeMonth_succ leap k (by omega)]
  have := monthLength_pos leap k
  omega

theorem daysBeforeMonth_thirteen (leap : Bool) :
    daysBeforeMonth leap 13 = if leap then 366 else 365 := by
  cases leap <;> rfl

/-- The day of the year of a date is one of the days of the year. -/
theorem dayOfYear_range (leap : Bool) (m d : Int) (h1 : 1 ≤ m) (h2 : m ≤ 12) (h3 : 1 ≤ d)
    (h4 : d ≤ monthLength leap m) :
    1 ≤ daysBeforeMonth leap m + d ∧
      daysBeforeMonth leap m + d ≤ if leap then 366 else 365 := by
  have a := daysBeforeMonth_mono leap 1 m (le_refl _) h1
  rw [daysBeforeMonth_one] at a
  have b := daysBeforeMonth_mono leap (m + 1) 13 (by omega) (by omega)
  rw [daysBeforeMonth_succ leap m h1, daysBeforeMonth_thirteen] at b
  constructor <;> omega

/-- A day of the year is the day of one month only. -/
theorem monthDay_unique (leap : Bool) (m d m' d' : Int) (h1 : 1 ≤ m) (h3 : 1 ≤ d)
    (h4 : d ≤ monthLength leap m) (h1' : 1 ≤ m') (h3' : 1 ≤ d')
    (h4' : d' ≤ monthLength leap m')
    (e : daysBeforeMonth leap m + d = daysBeforeMonth leap m' + d') : m = m' ∧ d = d' := by
  have key : m = m' := by
    rcases lt_trichotomy m m' with h | h | h
    · have := daysBeforeMonth_mono leap (m + 1) m' (by omega) (by omega)
      rw [daysBeforeMonth_succ leap m h1] at this
      omega
    · exact h
    · have := daysBeforeMonth_mono leap (m' + 1) m (by omega) (by omega)
      rw [daysBeforeMonth_succ leap m' h1'] at this
      omega
  subst key
  exact ⟨rfl, by omega⟩

/-- A serial day is a day of one year only. -/
theorem year_unique (y y' t t' : Int) (h1 : 1 ≤ t)
    (h2 : t ≤ if isLeapYear y then 366 else 365) (h1' : 1 ≤ t')
    (h2' : t' ≤ if isLeapYear y' then 366 else 365)
    (e : daysBeforeYear y + t = daysBeforeYear y' + t') : y = y' := by
  rcases lt_trichotomy y y' with h | h | h
  · have := daysBeforeYear_mono (show y + 1 ≤ y' by omega)
    rw [daysBeforeYear_succ] at this
    omega
  · exact h
  · have := daysBeforeYear_mono (show y' + 1 ≤ y by omega)
    rw [daysBeforeYear_succ] at this
    omega

/-- C11. For every integer serial day `t ≥ 1` within the bound of `datevec`, the year,
the month and the day that `datevec` returns are a Gregorian date whose serial day is `t`,
and they are the only such date; hour, minute and second are `0` and nothing is
written. -/
theorem datevec_gregorian (t : Int) (h1 : 1 ≤ t) (h2 : (t : ℚ) ≤ tmax) :
    ∃ y m d, datevec t = .ok ⟨y, m, d, 0, 0, 0, none⟩ ∧ IsGregorianDate y m d ∧
      gregorianDayNumber y m d = t ∧
      ∀ y' m' d', IsGregorianDate y' m' d' → gregorianDayNumber y' m' d' = t →
        y' = y ∧ m' = m ∧ d' = d := by
  have hb : |(t : ℚ)| ≤ tmax := by
    rw [abs_of_nonneg (by exact_mod_cast (by omega : (0 : Int) ≤ t))]
    exact h2
  have h2' : t ≤ 128849018880 := by
    unfold tmax at h2
    exact_mod_cast h2
  obtain ⟨y, m, d, he, hm1, hm2, hd1, hd2, hsum, _, _⟩ :=
    calendarDate_spec t (by omega) (by omega) (by omega)
  refine ⟨y, m, d, ?_, ⟨hm1, hm2, hd1, hd2⟩, ?_, ?_⟩
  · rw [datevec_accept _ hb, timeOfDay_int]
    simp only [he]
  · rw [gregorianDayNumber_eq]
    exact hsum
  · intro y' m' d' ⟨gm1, gm2, gd1, gd2⟩ hg
    rw [gregorianDayNumber_eq] at hg
    have r := dayOfYear_range (isLeapYear y) m d hm1 hm2 hd1 hd2
    have r' := dayOfYear_range (isLeapYear y') m' d' gm1 gm2 gd1 gd2
    have hy : y' = y :=
      year_unique y' y _ _ r'.1 r'.2 r.1 r.2 (by omega)
    subst hy
    obtain ⟨e1, e2⟩ :=
      monthDay_unique (isLeapYear y') m' d' m d gm1 gd1 gd2 hm1 hd1 hd2 (by omega)
    exact ⟨rfl, e1, e2⟩

theorem datevec_gregorian_witness :
    ∃ y m d, datevec ((730545 : Int) : ℚ) = .ok ⟨y, m, d, 0, 0, 0, none⟩ ∧
      IsGregorianDate y m d ∧ gregorianDayNumber y m d = 730545 ∧
      ∀ y' m' d', IsGregorianDate y' m' d' → gregorianDayNumber y' m' d' = 730545 →
        y' = y ∧ m' = m ∧ d' = d :=
  datevec_gregorian 730545 (by decide) (by norm_num [tmax])

/-! ## The time of day and the ranges of the fields -/

/-- Rounded seconds of the `double` `3165652890181911 / 2 ^ 32`: the product with `86400`
is less than `63682070400.5` by `91 / 2 ^ 25`, and rounds to `63682070400.5`. -/
theorem roundedSeconds_halfway :
    roundedSeconds (3165652890181911 / 4294967296) = 63682070401 := by
  have p : roundDouble (86400 * (3165652890181911 / 4294967296)) = 127364140801 / 2 := by
    rw [roundDouble_eq _ 35 (by norm_num) (by norm_num) (by norm_num) (by norm_num)]
    norm_num [roundHalfEven]
  have q : roundDouble (127364140801 / 2 + 1 / 2) = 63682070401 := by
    rw [roundDouble_eq _ 35 (by norm_num) (by norm_num) (by norm_num) (by norm_num)]
    norm_num [roundHalfEven]
  unfold roundedSeconds
  rw [p, q]
  norm_num

theorem roundedSeconds_noon : roundedSeconds (1 / 2) = 43200 := by
  have p : roundDouble (86400 * (1 / 2)) = 43200 := by
    rw [roundDouble_eq _ 15 (by norm_num) (by norm_num) (by norm_num) (by norm_num)]
    norm_num [roundHalfEven]
  have q : roundDouble (43200 + 1 / 2) = 86401 / 2 := by
    rw [roundDouble_eq _ 15 (by norm_num) (by norm_num) (by norm_num) (by norm_num)]
    norm_num [roundHalfEven]
  unfold roundedSeconds
  rw [p, q]
  norm_num

/-- C12 (amended). For every non-integer serial date within the bound, with `N` the
rounded seconds of `roundedSeconds`, the floor of the `double` sum of `0.5` and the
`double` product `86400 * time`, `datevec` returns second `N mod 60`, minute
`floor(N/60) mod 60`, hour `floor(N/3600) mod 24` and the year, month and day of the day
count `floor(N/86400)`; for every integer serial date within the bound it returns hour,
minute and second `0`. -/
theorem datevec_timeOfDay (time : ℚ) (hb : |time| ≤ tmax) :
    (time ≠ ⌊time⌋ →
      ∃ y m d, calendarDate (roundedSeconds time / 86400) = .ok (y, m, d) ∧
        datevec time = .ok ⟨y, m, d, roundedSeconds time / 3600 % 24,
          roundedSeconds time / 60 % 60, roundedSeconds time % 60, none⟩) ∧
    (time = ⌊time⌋ → ∃ y m d, datevec time = .ok ⟨y, m, d, 0, 0, 0, none⟩) := by
  obtain ⟨y, m, d, h, mi, s, e, ec, et, _⟩ := datevec_total time hb
  constructor
  · intro hne
    rw [timeOfDay_frac time hne] at ec et
    simp only [Prod.mk.injEq, true_and] at et
    obtain ⟨e1, e2, e3⟩ := et
    refine ⟨y, m, d, ec, ?_⟩
    rw [e, e1, e2, e3]
  · intro hint
    rw [hint, timeOfDay_int] at et
    simp only [Prod.mk.injEq, true_and] at et
    obtain ⟨e1, e2, e3⟩ := et
    refine ⟨y, m, d, ?_⟩
    rw [e, ← e1, ← e2, ← e3]

theorem datevec_timeOfDay_witness :
    |(1461091 / 2 : ℚ)| ≤ tmax ∧ (1461091 / 2 : ℚ) ≠ ⌊(1461091 / 2 : ℚ)⌋ ∧
      ∃ y m d, calendarDate (roundedSeconds (1461091 / 2) / 86400) = .ok (y, m, d) ∧
        datevec (1461091 / 2) = .ok ⟨y, m, d,
          roundedSeconds (1461091 / 2) / 3600 % 24,
          roundedSeconds (1461091 / 2) / 60 % 60,
          roundedSeconds (1461091 / 2) % 60, none⟩ :=
  ⟨by norm_num [tmax, abs_le], by norm_num,
    (datevec_timeOfDay (1461091 / 2) (by norm_num [tmax, abs_le])).1 (by norm_num)⟩

/-- C12 (counterexample). The serial date `3165652890181911 / 2 ^ 32`, a `double` less
than half a second after the midnight that begins 1 January 2018: it is within the bound
and not an integer, the floor of `86400 * time + 1/2` is a multiple of `60`, and
`datevec` returns second `1`. -/
theorem datevec_timeOfDay_counterexample :
    |(3165652890181911 / 4294967296 : ℚ)| ≤ tmax ∧
      (3165652890181911 / 4294967296 : ℚ) ≠ ⌊(3165652890181911 / 4294967296 : ℚ)⌋ ∧
      ⌊86400 * (3165652890181911 / 4294967296 : ℚ) + 1 / 2⌋ % 60 = 0 ∧
      datevec (3165652890181911 / 4294967296) = .ok ⟨2018, 1, 1, 0, 0, 1, none⟩ := by
  have hb : |(3165652890181911 / 4294967296 : ℚ)| ≤ tmax := by norm_num [tmax, abs_le]
  have hne : (3165652890181911 / 4294967296 : ℚ) ≠ ⌊(3165652890181911 / 4294967296 : ℚ)⌋ := by
    norm_num
  refine ⟨hb, hne, by norm_num, ?_⟩
  rw [datevec_accept _ hb, timeOfDay_frac _ hne, roundedSeconds_halfway]
  rfl

/-- The day count of a serial date from `0` to the last second of the serial day `0`
is `0`. -/
theorem dayCount_eq_zero (time : ℚ) (h0 : 0 ≤ time) (h1 : time ≤ 1 - 1 / 86400) :
    (timeOfDay time).1 = 0 := by
  by_cases h : time = ⌊time⌋
  · rw [h, timeOfDay_int]
    rw [h] at h0 h1
    have a : (0 : Int) ≤ ⌊time⌋ := by exact_mod_cast h0
    have b : ((⌊time⌋ : Int) : ℚ) < 1 := by
      have : (1 : ℚ) - 1 / 86400 < 1 := by norm_num
      linarith
    have b' : ⌊time⌋ < 1 := by exact_mod_cast b
    simp only
    omega
  · rw [timeOfDay_frac time h]
    simp only
    unfold roundedSeconds
    have e1 := roundDouble_error_le (86400 * time)
    have p53 : (2 : ℚ) ^ 53 = 9007199254740992 := by norm_num
    rw [abs_le, abs_of_nonneg (by linarith), p53] at e1
    generalize roundDouble (86400 * time) = r1 at e1 ⊢
    have e2 := roundDouble_error_le (r1 + 1 / 2)
    rw [abs_le, abs_of_nonneg (by linarith), p53] at e2
    generalize roundDouble (r1 + 1 / 2) = r2 at e2 ⊢
    have a : (0 : Int) ≤ ⌊r2⌋ := by
      rw [Int.le_floor]
      push_cast
      linarith
    have b : ⌊r2⌋ < 86400 := by
      rw [Int.floor_lt]
      push_cast
      linarith
    omega

/-- C13 (amended). For every serial date within the bound, hour, minute and
second are in `[0,23]`, `[0,59]` and `[0,59]`; month and day are in `[1,12]` and `[1,31]`
when the day count that is left after the time of day is not `0`, and year, month and day
are `0` when it is `0`.  The day count is not `0` for a serial date of magnitude `1` or
more, and it is `0` for a serial date from `0` to `1 - 1/86400`. -/
theorem datevec_field_ranges (time : ℚ) (hb : |time| ≤ tmax) :
    ∃ r, datevec time = .ok r ∧ 0 ≤ r.hour ∧ r.hour ≤ 23 ∧ 0 ≤ r.minute ∧ r.minute ≤ 59 ∧
      0 ≤ r.second ∧ r.second ≤ 59 ∧
      ((timeOfDay time).1 ≠ 0 → 1 ≤ r.month ∧ r.month ≤ 12 ∧ 1 ≤ r.day ∧ r.day ≤ 31) ∧
      ((timeOfDay time).1 = 0 → r.year = 0 ∧ r.month = 0 ∧ r.day = 0) ∧
      (1 ≤ |time| → (timeOfDay time).1 ≠ 0) ∧
      (0 ≤ time ∧ time ≤ 1 - 1 / 86400 → (timeOfDay time).1 = 0) := by
  obtain ⟨y, m, d, h, mi, s, e, _, _, _, _, c1, c2, r1, r2, r3, r4, r5, r6⟩ :=
    datevec_total time hb
  exact ⟨_, e, r1, r2, r3, r4, r5, r6, c1, c2, dayCount_ne_zero time,
    fun hz => dayCount_eq_zero time hz.1 hz.2⟩

theorem datevec_field_ranges_witness :
    |(1461091 / 2 : ℚ)| ≤ tmax ∧
    ∃ r, datevec (1461091 / 2) = .ok r ∧ 0 ≤ r.hour ∧ r.hour ≤ 23 ∧ 0 ≤ r.minute ∧
      r.minute ≤ 59 ∧ 0 ≤ r.second ∧ r.second ≤ 59 ∧
      ((timeOfDay (1461091 / 2)).1 ≠ 0 →
        1 ≤ r.month ∧ r.month ≤ 12 ∧ 1 ≤ r.day ∧ r.day ≤ 31) ∧
      ((timeOfDay (1461091 / 2)).1 = 0 → r.year = 0 ∧ r.month = 0 ∧ r.day = 0) ∧
      (1 ≤ |(1461091 / 2 : ℚ)| → (timeOfDay (1461091 / 2)).1 ≠ 0) ∧
      (0 ≤ (1461091 / 2 : ℚ) ∧ (1461091 / 2 : ℚ) ≤ 1 - 1 / 86400 →
        (timeOfDay (1461091 / 2)).1 = 0) :=
  ⟨by norm_num [tmax, abs_le], datevec_field_ranges (1461091 / 2) (by norm_num [tmax, abs_le])⟩

/-- C13 (counterexample). Noon of the serial day `0`: the serial date `1/2` is within the bound and
`datevec` returns month `0` and day `0` for it, with hour `12`. -/
theorem datevec_field_ranges_counterexample :
    |(1 / 2 : ℚ)| ≤ tmax ∧ datevec (1 / 2) = .ok ⟨0, 0, 0, 12, 0, 0, none⟩ := by
  have hb : |(1 / 2 : ℚ)| ≤ tmax := by norm_num [tmax, abs_le]
  refine ⟨hb, ?_⟩
  have hne : (1 / 2 : ℚ) ≠ ⌊(1 / 2 : ℚ)⌋ := by norm_num
  rw [datevec_accept _ hb, timeOfDay_frac _ hne, roundedSeconds_noon]
  rfl

/-- Rounded seconds of the `double` `-3416063717353621 / 2 ^ 69`: the product with
`86400` rounds to `-0.5`, and the sum with `0.5` is `0`. -/
theorem roundedSeconds_before_zero :
    roundedSeconds (-3416063717353621 / 590295810358705651712) = 0 := by
  have p : roundDouble (86400 * (-3416063717353621 / 590295810358705651712)) = -1 / 2 := by
    rw [roundDouble_eq_neg _ (-1) (by norm_num) (by norm_num) (by norm_num) (by norm_num)]
    norm_num [roundHalfEven]
  have q : roundDouble (-1 / 2 + 1 / 2) = 0 := by
    unfold roundDouble
    norm_num
  unfold roundedSeconds
  rw [p, q]
  norm_num

/-- The `double` `-3416063717353621 / 2 ^ 69`, more than half a second before the serial
date `0`: the floor of `86400 * time + 1/2` is `-1`, the day count of `datevec` is `0`,
and the six fields are `0`. -/
theorem datevec_before_zero :
    ⌊86400 * (-3416063717353621 / 590295810358705651712 : ℚ) + 1 / 2⌋ = -1 ∧
      datevec (-3416063717353621 / 590295810358705651712) = .ok ⟨0, 0, 0, 0, 0, 0, none⟩ := by
  have hb : |(-3416063717353621 / 590295810358705651712 : ℚ)| ≤ tmax := by
    norm_num [tmax, abs_le]
  have hne : (-3416063717353621 / 590295810358705651712 : ℚ)
      ≠ ⌊(-3416063717353621 / 590295810358705651712 : ℚ)⌋ := by
    norm_num
  refine ⟨by norm_num, ?_⟩
  rw [datevec_accept _ hb, timeOfDay_frac _ hne, roundedSeconds_before_zero]
  rfl

/-! ## The range check and the fixed dates -/

theorem datevec_reject (time : ℚ) (h : tmax < |time|) :
    datevec time = .ok ⟨0, 0, 0, 0, 0, 0, some time⟩ := by
  unfold datevec
  rw [if_pos h]

/-- C14 (counterexample). The serial date `200000000000`: its magnitude exceeds the bound, and
the conversion returns normally with the six fields `0` and with the string of the
serial date `0`. -/
theorem convDateIso8601_outOfRange_counterexample :
    tmax < |(200000000000 : ℚ)| ∧
      datevec 200000000000 = .ok ⟨0, 0, 0, 0, 0, 0, some 200000000000⟩ ∧
      convDateIso8601 200000000000 = .ok "0000-00-00T00:00:00Z" ∧
      convDateIso8601 200000000000 = convDateIso8601 0 := by
  decide

/-- C14 (amended). For every serial date whose magnitude exceeds the bound,
`datevec` writes the line `Error in datevec: Date number out of range: ` with the value
to `std::cout` and returns with the six fields `0`, and `convDateIso8601` returns the
string `0000-00-00T00:00:00Z`. -/
theorem convDateIso8601_outOfRange (time : ℚ) (h : tmax < |time|) :
    datevec time = .ok ⟨0, 0, 0, 0, 0, 0, some time⟩ ∧
      convDateIso8601 time = .ok "0000-00-00T00:00:00Z" := by
  have e := datevec_reject time h
  refine ⟨e, ?_⟩
  unfold convDateIso8601
  rw [e]
  rfl

theorem convDateIso8601_outOfRange_witness :
    tmax < |(-128849018881 : ℚ)| ∧
      datevec (-128849018881) = .ok ⟨0, 0, 0, 0, 0, 0, some (-128849018881)⟩ ∧
      convDateIso8601 (-128849018881) = .ok "0000-00-00T00:00:00Z" :=
  ⟨by decide, convDateIso8601_outOfRange (-128849018881) (by decide)⟩

/-- C15 (counterexample). The serial day `2000000`: it exceeds `1.2884901888e11 / 86400` days
and `datevec` converts it, to the 24th of October of the year 5475. -/
theorem datevec_bound_counterexample :
    (128849018880 / 86400 : ℚ) < |(2000000 : ℚ)| ∧
      datevec 2000000 = .ok ⟨5475, 10, 24, 0, 0, 0, none⟩ := by
  constructor
  · norm_num
  · decide

/-- C15 (amended). The function `datevec` rejects a serial date, with the line on
`std::cout` and the six fields `0`, exactly when its magnitude exceeds `1.2884901888e11`
days; every other serial date is converted. -/
theorem datevec_bound (time : ℚ) :
    ∃ r, datevec time = .ok r ∧ (r.cout = some time ↔ tmax < |time|) ∧
      (r.cout = none ↔ |time| ≤ tmax) := by
  by_cases h : tmax < |time|
  · refine ⟨_, (datevec_reject time h), ?_, ?_⟩
    · simp [h]
    · simp [h]
  · obtain ⟨y, m, d, hh, mi, s, e, _⟩ := datevec_total time (not_lt.mp h)
    refine ⟨_, e, ?_, ?_⟩
    · simp [h]
    · simp [not_lt.mp h]

/-- C16. The serial day that is day 60 of the year is February 29 in the year 2000 and
March 1 in the years 1900 and 2100. -/
theorem convDateIso8601_leapBoundary :
    daysBeforeYear 2000 + 60 = 730545 ∧
      convDateIso8601 730545 = .ok "2000-02-29T00:00:00Z" ∧
    daysBeforeYear 1900 + 60 = 694021 ∧
      convDateIso8601 694021 = .ok "1900-03-01T00:00:00Z" ∧
    daysBeforeYear 2100 + 60 = 767070 ∧
      convDateIso8601 767070 = .ok "2100-03-01T00:00:00Z" := by
  decide

/-- C17. The serial date `0` gives the six fields `0` and the string
`0000-00-00T00:00:00Z`. -/
theorem convDateIso8601_zero :
    datevec 0 = .ok ⟨0, 0, 0, 0, 0, 0, none⟩ ∧
      convDateIso8601 0 = .ok "0000-00-00T00:00:00Z" := by
  decide

/-! ## The time string -/

theorem digitChar_isDigit (d : Nat) (h : d < 10) : (digitChar d).isDigit = true := by
  interval_cases d <;> decide

theorem decimalDigits_isDigit (fuel : Nat) :
    ∀ n, ∀ c ∈ decimalDigits fuel n, c.isDigit = true := by
  induction fuel with
  | zero => intro n c hc; simp [decimalDigits] at hc
  | succ f ih =>
    intro n c hc
    unfold decimalDigits at hc
    split_ifs at hc with h
    · rw [List.mem_singleton] at hc
      rw [hc]
      exact digitChar_isDigit n h
    · rw [List.mem_append, List.mem_singleton] at hc
      rcases hc with hc | hc
      · exact ih _ c hc
      · rw [hc]
        exact digitChar_isDigit _ (Nat.mod_lt _ (by decide))

theorem decimalDigits_length (fuel : Nat) :
    ∀ k n, n < 10 ^ (k + 1) → (decimalDigits fuel n).length ≤ k + 1 := by
  induction fuel with
  | zero => intro k n _; simp [decimalDigits]
  | succ f ih =>
    intro k n hn
    unfold decimalDigits
    split_ifs with h
    · simp
    · rw [List.length_append, List.length_singleton]
      cases k with
      | zero => omega
      | succ k =>
        have := ih k (n / 10) (by rw [pow_succ] at hn; omega)
        omega

/-- Text of a number of at most `w` digits under `std::setw(w)` with the fill character
`'0'`: `w` decimal digits. -/
theorem putInt_digits (w : Nat) (n : Int) (h0 : 0 ≤ n) (h1 : n < 10 ^ (w + 1)) :
    (putInt (w + 1) n).length = w + 1 ∧ ∀ c ∈ putInt (w + 1) n, c.isDigit = true := by
  have e : showInt n = decimalDigits (n.natAbs + 1) n.natAbs := by
    unfold showInt
    rw [if_neg (by omega)]
  have hl : (showInt n).length ≤ w + 1 := by
    rw [e]
    apply decimalDigits_length
    have : (n.natAbs : Int) < 10 ^ (w + 1) := by omega
    exact_mod_cast this
  unfold putInt
  constructor
  · rw [List.length_append, List.length_replicate]
    omega
  · intro c hc
    rw [List.mem_append] at hc
    rcases hc with hc | hc
    · rw [List.eq_of_mem_replicate hc]
      decide
    · rw [e] at hc
      exact decimalDigits_isDigit _ _ c hc

theorem isIsoTimeStr_of_parts (yy mm dd hh mi ss : List Char)
    (hy : yy.length = 4 ∧ ∀ c ∈ yy, c.isDigit = true)
    (hm : mm.length = 2 ∧ ∀ c ∈ mm, c.isDigit = true)
    (hd : dd.length = 2 ∧ ∀ c ∈ dd, c.isDigit = true)
    (hh' : hh.length = 2 ∧ ∀ c ∈ hh, c.isDigit = true)
    (hmi : mi.length = 2 ∧ ∀ c ∈ mi, c.isDigit = true)
    (hs : ss.length = 2 ∧ ∀ c ∈ ss, c.isDigit = true) :
    IsIsoTimeStr (String.mk (yy ++ '-' :: mm ++ '-' :: dd ++ 'T' :: hh ++ ':' :: mi ++
      ':' :: ss ++ ['Z'])) := by
  obtain ⟨a1, a2, rfl⟩ := List.length_eq_two.mp hm.1
  obtain ⟨b1, b2, rfl⟩ := List.length_eq_two.mp hd.1
  obtain ⟨c1, c2, rfl⟩ := List.length_eq_two.mp hh'.1
  obtain ⟨d1, d2, rfl⟩ := List.length_eq_two.mp hmi.1
  obtain ⟨e1, e2, rfl⟩ := List.length_eq_two.mp hs.1
  obtain ⟨hy1, hy2⟩ := hy
  match yy, hy1, hy2 with
  | [y1, y2, y3, y4], _, hy2 =>
    simp only [List.mem_cons, List.mem_singleton, forall_eq_or_imp, forall_eq, List.not_mem_nil,
      false_implies, implies_true, and_true, IsEmpty.forall_iff, or_false] at hy2 hm hd hh' hmi hs
    simp [IsIsoTimeStr, String.length, hy2, hm, hd, hh', hmi, hs]

/-- C18 (counterexample). The serial day `4000000`: the range check accepts it and the string has
21 characters, the year having five digits. -/
theorem convDateIso8601_format_counterexample :
    |(4000000 : ℚ)| ≤ tmax ∧ convDateIso8601 4000000 = .ok "10951-08-17T00:00:00Z" ∧
      ¬ IsIsoTimeStr "10951-08-17T00:00:00Z" := by
  decide

/-- C18 (amended). For every serial date that the range check accepts and
whose year is one of `0` to `9999`, `convDateIso8601` returns a string of the form
`YYYY-MM-DDThh:mm:ssZ`. -/
theorem convDateIso8601_format (time : ℚ) (hb : |time| ≤ tmax) :
    ∃ r, datevec time = .ok r ∧
      (0 ≤ r.year → r.year ≤ 9999 →
        ∃ s, convDateIso8601 time = .ok s ∧ IsIsoTimeStr s) := by
  obtain ⟨y, m, d, h, mi, s, e, _, _, y1, y2, c1, c2, r1, r2, r3, r4, r5, r6⟩ :=
    datevec_total time hb
  refine ⟨_, e, ?_⟩
  intro hy0 hy1
  simp only at hy0 hy1
  have hmd : 0 ≤ m ∧ m ≤ 12 ∧ 0 ≤ d ∧ d ≤ 31 := by
    by_cases h0 : (timeOfDay time).1 = 0
    · obtain ⟨_, rfl, rfl⟩ := c2 h0
      omega
    · have := c1 h0
      omega
  refine ⟨getIsoTimeStr y m d h mi s, ?_, ?_⟩
  · unfold convDateIso8601
    rw [e]
    simp only [bind, Except.bind]
    rw [toInt_ok y (by omega) (by omega), toInt_ok m (by omega) (by omega),
      toInt_ok d (by omega) (by omega), toInt_ok h (by omega) (by omega),
      toInt_ok mi (by omega) (by omega), toInt_ok s (by omega) (by omega)]
    rfl
  · unfold getIsoTimeStr
    exact isIsoTimeStr_of_parts _ _ _ _ _ _
      (putInt_digits 3 y hy0 (by omega)) (putInt_digits 1 m (by omega) (by omega))
      (putInt_digits 1 d (by omega) (by omega)) (putInt_digits 1 h (by omega) (by omega))
      (putInt_digits 1 mi (by omega) (by omega)) (putInt_digits 1 s (by omega) (by omega))

theorem convDateIso8601_format_witness :
    |(730545 : ℚ)| ≤ tmax ∧
      ∃ s, convDateIso8601 730545 = .ok s ∧ IsIsoTimeStr s := by
  refine ⟨by decide, ?_⟩
  obtain ⟨r, hr, h⟩ := convDateIso8601_format 730545 (by decide)
  have e : datevec 730545 = .ok ⟨2000, 2, 29, 0, 0, 0, none⟩ := by decide
  rw [e] at hr
  cases hr
  exact h (by decide) (by decide)

/-! ## The header checks of the grid reader -/

/-- C20. For every buffer that starts with `MBG_` and holds the six header fields,
`readGridAndMatrixFromMBG2Format` returns `false` when the version is not `2`, or the
number of payloads per forecast is not `1`, or the payload type is not `0`, or the number
of forecasts is not `1`, whatever bytes follow the header: the read position is behind
the header, the matrix is empty and the axes are the ones of the caller. -/
theorem readGrid_headerMismatch (version precision numPayloadsPerForecast payloadMeta
    numForecasts forecastDate : Nat) (rest : List Byte) (results : Matrix)
    (lats lons : List Nat)
    (hv : version < 2 ^ 32) (hp : precision < 2 ^ 32) (hn : numPayloadsPerForecast < 2 ^ 32)
    (hm : payloadMeta < 2 ^ 32) (hf : numForecasts < 2 ^ 32) (hd : forecastDate < 2 ^ 64)
    (hsize : rest.length < 2 ^ 62)
    (hbad : toInt32 version ≠ 2 ∨ toInt32 numPayloadsPerForecast ≠ 1 ∨
      toInt32 payloadMeta ≠ 0 ∨ toInt32 numForecasts ≠ 1) :
    ∃ cout, readGridAndMatrixFromMBG2Format
        ⟨encodeHeader version precision numPayloadsPerForecast payloadMeta
            numForecasts forecastDate ++ rest, 0⟩ results lats lons
      = .ok ⟨false, ⟨encodeHeader version precision numPayloadsPerForecast payloadMeta
            numForecasts forecastDate ++ rest, 32⟩, [], lats, lons, cout⟩ := by
  generalize hbuf : encodeHeader version precision numPayloadsPerForecast payloadMeta
    numForecasts forecastDate ++ rest = buf
  have hlen : buf.length < 2 ^ 63 := by
    rw [← hbuf]
    simp only [encodeHeader, List.length_append, leBytes_length, magicMBG, List.length_cons,
      List.length_nil]
    omega
  have h0 : Unread { mem := buf, readPos := 0 }
      (magicMBG ++ (leBytes 4 version ++ (leBytes 4 precision
        ++ (leBytes 4 numPayloadsPerForecast ++ (leBytes 4 payloadMeta
        ++ (leBytes 4 numForecasts ++ (leBytes 8 forecastDate ++ rest))))))) :=
    ⟨hlen, Nat.zero_le _, by simp [← hbuf, encodeHeader, List.append_assoc]⟩
  obtain ⟨m0, e0, u0, hm0⟩ := readString_next _ _ _ h0
  obtain ⟨m1, e1, u1, hm1⟩ := read_next 4 some m0 none _ _ u0 (by norm_num; omega)
  obtain ⟨m2, e2, u2, hm2⟩ := read_next 4 some m1 none _ _ u1 (by norm_num; omega)
  obtain ⟨m3, e3, u3, hm3⟩ := read_next 4 some m2 none _ _ u2 (by norm_num; omega)
  obtain ⟨m4, e4, u4, hm4⟩ := read_next 4 some m3 none _ _ u3 (by norm_num; omega)
  obtain ⟨m5, e5, u5, hm5⟩ := read_next 4 some m4 none _ _ u4 (by norm_num; omega)
  obtain ⟨m6, e6, u6, hm6⟩ := read_next 8 some m5 none _ _ u5 (by norm_num; omega)
  have hmem : m6.mem = buf := by rw [hm6, hm5, hm4, hm3, hm2, hm1, hm0]
  have hpos : m6.readPos = 32 := by
    have hl := u6.length_eq
    have hb : buf.length = 32 + rest.length := by
      rw [← hbuf]
      simp only [encodeHeader, List.length_append, leBytes_length, magicMBG,
        List.length_cons, List.length_nil]
    rw [hmem] at hl
    omega
  have hm6eq : m6 = { mem := buf, readPos := 32 } := by
    cases m6
    simp only at hmem hpos
    rw [hmem, hpos]
  subst hm6eq
  have hmagic : magicMBG.length = 4 := rfl
  rw [hmagic] at e0
  unfold readGridAndMatrixFromMBG2Format
  rw [e0]
  simp only [bind, Except.bind, ne_eq, not_true_eq_false, ite_false, if_false]
  rw [e1]; simp only []
  rw [e2]; simp only []
  rw [e3]; simp only []
  rw [e4]; simp only []
  rw [e5]; simp only []
  rw [e6]; simp only [use, pure, Except.pure]
  by_cases c1 : toInt32 version = 2
  · by_cases c2 : toInt32 numPayloadsPerForecast = 1
    · by_cases c3 : toInt32 payloadMeta = 0
      · have c4 : toInt32 numForecasts ≠ 1 := by
          rcases hbad with h | h | h | h
          · exact absurd c1 h
          · exact absurd c2 h
          · exact absurd c3 h
          · exact h
        have hbig : ¬ ((1 : Int) > 100000) := by decide
        simp only [c1, c2, c3, c4, hbig, not_true_eq_false, not_false_eq_true, if_false,
          ite_false, if_true, ite_true]
        exact ⟨_, rfl⟩
      · have hbig : ¬ ((1 : Int) > 100000) := by decide
        simp only [c1, c2, c3, hbig, not_true_eq_false, not_false_eq_true, if_false,
          ite_false, if_true, ite_true]
        exact ⟨_, rfl⟩
    · simp only [c1, not_true_eq_false, if_false, ite_false]
      by_cases c5 : toInt32 numPayloadsPerForecast > 100000
      · simp only [c5, if_true, ite_true]
        exact ⟨_, rfl⟩
      · simp only [c5, c2, not_false_eq_true, if_false, ite_false, if_true, ite_true]
        exact ⟨_, rfl⟩
  · simp only [c1, not_false_eq_true, if_true, ite_true]
    exact ⟨_, rfl⟩

theorem readGrid_headerMismatch_witness :
    ∃ cout, readGridAndMatrixFromMBG2Format
        ⟨encodeHeader 3 4 1 0 1 0 ++ [1, 2, 3], 0⟩ [[1]] [2] [3]
      = .ok ⟨false, ⟨encodeHeader 3 4 1 0 1 0 ++ [1, 2, 3], 32⟩, [], [2], [3], cout⟩ :=
  readGrid_headerMismatch 3 4 1 0 1 0 [1, 2, 3] [[1]] [2] [3] (by decide) (by decide)
    (by decide) (by decide) (by decide) (by decide) (by decide) (Or.inl (by decide))

/-! ## The diagnoses of the grid reader -/

theorem msg_ne_version (a b : String) :
    "WARNING! numForecasts too big (possibly big-endian): " ++ a ++ "\n"
      ≠ "only MBG version 2 supported, this is version " ++ b ++ "\n" := by
  intro h
  have h1 := congrArg (fun s => s.data.head?) h
  simp only [String.data_append, List.append_assoc] at h1
  simp at h1

theorem msg_ne_payloads (a : String) :
    "WARNING! numForecasts too big (possibly big-endian): " ++ a ++ "\n"
      ≠ "WARNING! wrong number of payloads per forecast date received\n" := by
  intro h
  have h1 := congrArg (fun s => s.data.take 10) h
  simp only [String.data_append, List.append_assoc] at h1
  simp at h1

/-- C21. For every buffer that starts with `MBG_` and holds the six header fields with
version `2`: when the number of payloads per forecast exceeds `100000` the grid reader
returns `false` with the line `WARNING! numForecasts too big (possibly big-endian): `
and the number on `std::cout`, whatever the payload type, the number of forecasts and the
bytes after the header are; when it is another number than `1` that does not exceed
`100000` the line is the one of the wrong number of payloads.  The first line differs
from that one and from every line of a version mismatch. -/
theorem readGrid_sanityBound (version precision numPayloadsPerForecast payloadMeta
    numForecasts forecastDate : Nat) (rest : List Byte) (results : Matrix)
    (lats lons : List Nat)
    (hv : version < 2 ^ 32) (hp : precision < 2 ^ 32) (hn : numPayloadsPerForecast < 2 ^ 32)
    (hm : payloadMeta < 2 ^ 32) (hf : numForecasts < 2 ^ 32) (hd : forecastDate < 2 ^ 64)
    (hsize : rest.length < 2 ^ 62) (hversion : toInt32 version = 2) :
    (toInt32 numPayloadsPerForecast > 100000 →
      readGridAndMatrixFromMBG2Format
          ⟨encodeHeader version precision numPayloadsPerForecast payloadMeta
            numForecasts forecastDate ++ rest, 0⟩ results lats lons
        = .ok ⟨false, ⟨encodeHeader version precision numPayloadsPerForecast payloadMeta
            numForecasts forecastDate ++ rest, 32⟩, [], lats, lons,
            "WARNING! numForecasts too big (possibly big-endian): "
              ++ toString (toInt32 numPayloadsPerForecast) ++ "\n"⟩) ∧
    (toInt32 numPayloadsPerForecast ≤ 100000 → toInt32 numPayloadsPerForecast ≠ 1 →
      readGridAndMatrixFromMBG2Format
          ⟨encodeHeader version precision numPayloadsPerForecast payloadMeta
            numForecasts forecastDate ++ rest, 0⟩ results lats lons
        = .ok ⟨false, ⟨encodeHeader version precision numPayloadsPerForecast payloadMeta
            numForecasts forecastDate ++ rest, 32⟩, [], lats, lons,
            "WARNING! wrong number of payloads per forecast date received\n"⟩) ∧
    (∀ v : Int, "WARNING! numForecasts too big (possibly big-endian): "
        ++ toString (toInt32 numPayloadsPerForecast) ++ "\n"
      ≠ "only MBG version 2 supported, this is version " ++ toString v ++ "\n") ∧
    "WARNING! numForecasts too big (possibly big-endian): "
        ++ toString (toInt32 numPayloadsPerForecast) ++ "\n"
      ≠ "WARNING! wrong number of payloads per forecast date received\n" := by
  refine ⟨?_, ?_, fun v => msg_ne_version _ _, msg_ne_payloads _⟩
  all_goals
    generalize hbuf : encodeHeader version precision numPayloadsPerForecast payloadMeta
      numForecasts forecastDate ++ rest = buf
    have hb : buf.length = 32 + rest.length := by
      rw [← hbuf]
      simp only [encodeHeader, List.length_append, leBytes_length, magicMBG,
        List.length_cons, List.length_nil]
    have h0 : Unread { mem := buf, readPos := 0 }
        (magicMBG ++ (leBytes 4 version ++ (leBytes 4 precision
          ++ (leBytes 4 numPayloadsPerForecast ++ (leBytes 4 payloadMeta
          ++ (leBytes 4 numForecasts ++ (leBytes 8 forecastDate ++ rest))))))) :=
      ⟨by show buf.length < 2 ^ 63; omega, Nat.zero_le _,
        by simp [← hbuf, encodeHeader, List.append_assoc]⟩
    obtain ⟨m0, e0, u0, hm0⟩ := readString_next _ _ _ h0
    obtain ⟨m1, e1, u1, hm1⟩ := read_next 4 some m0 none _ _ u0 (by norm_num; omega)
    obtain ⟨m2, e2, u2, hm2⟩ := read_next 4 some m1 none _ _ u1 (by norm_num; omega)
    obtain ⟨m3, e3, u3, hm3⟩ := read_next 4 some m2 none _ _ u2 (by norm_num; omega)
    obtain ⟨m4, e4, u4, hm4⟩ := read_next 4 some m3 none _ _ u3 (by norm_num; omega)
    obtain ⟨m5, e5, u5, hm5⟩ := read_next 4 some m4 none _ _ u4 (by norm_num; omega)
    obtain ⟨m6, e6, u6, hm6⟩ := read_next 8 some m5 none _ _ u5 (by norm_num; omega)
    have hmem : m6.mem = buf := by rw [hm6, hm5, hm4, hm3, hm2, hm1, hm0]
    have hpos : m6.readPos = 32 := by
      have hl := u6.length_eq
      rw [hmem] at hl
      omega
    have hm6eq : m6 = { mem := buf, readPos := 32 } := by
      cases m6
      simp only at hmem hpos
      rw [hmem, hpos]
    subst hm6eq
    have hmagic : magicMBG.length = 4 := rfl
    rw [hmagic] at e0
    unfold readGridAndMatrixFromMBG2Format
    rw [e0]
    simp only [bind, Except.bind, ne_eq, not_true_eq_false, ite_false, if_false]
    rw [e1]; simp only []
    rw [e2]; simp only []
    rw [e3]; simp only []
    rw [e4]; simp only []
    rw [e5]; simp only []
    rw [e6]; simp only [use, pure, Except.pure]
  · intro hbig
    simp only [hversion, hbig, not_true_eq_false, if_false, ite_false, if_true, ite_true]
  · intro hle hne
    have hbig : ¬ toInt32 numPayloadsPerForecast > 100000 := not_lt.mpr hle
    simp only [hversion, hbig, hne, not_true_eq_false, not_false_eq_true, if_false, ite_false,
      if_true, ite_true]

theorem readGrid_sanityBound_witness :
    toInt32 2 = 2 ∧ toInt32 200000 > 100000 ∧
      readGridAndMatrixFromMBG2Format ⟨encodeHeader 2 4 200000 7 9 0 ++ [1, 2, 3], 0⟩
          [[1]] [2] [3]
        = .ok ⟨false, ⟨encodeHeader 2 4 200000 7 9 0 ++ [1, 2, 3], 32⟩, [], [2], [3],
            "WARNING! numForecasts too big (possibly big-endian): "
              ++ toString (toInt32 200000) ++ "\n"⟩ :=
  ⟨by decide, by decide,
    (readGrid_sanityBound 2 4 200000 7 9 0 [1, 2, 3] [[1]] [2] [3] (by decide) (by decide)
      (by decide) (by decide) (by decide) (by decide) (by decide) (by decide)).1 (by decide)⟩

/-! ## The outputs of the grid reader -/

theorem forLoop_invariant {σ : Type} (P : σ → Prop) (body : Nat → σ → Except Fault σ)
    (hbody : ∀ i s s', body i s = .ok s' → P s → P s') :
    ∀ (n i : Nat) (s s' : σ), forLoop body n i s = .ok s' → P s → P s' := by
  intro n
  induction n with
  | zero =>
    intro i s s' h hp
    simp only [forLoop] at h
    cases h
    exact hp
  | succ n ih =>
    intro i s s' h hp
    simp only [forLoop, bind, Except.bind] at h
    split at h
    · cases h
    · rename_i s1 h1
      exact ih (i + 1) s1 s' h (hbody i s s1 h1 hp)

theorem index_mem {α : Type} (v : List α) (i : Nat) (a : α) (h : index v i = .ok a) :
    a ∈ v := by
  unfold index at h
  split at h
  · rename_i b hb
    cases h
    exact List.getElem?_mem hb
  · cases h

theorem set_shape (m : Matrix) (a b i : Nat) (row : List Nat) (hm : HasShape m a b)
    (hrow : row.length = b) : HasShape (m.set i row) a b := by
  refine ⟨by rw [List.length_set]; exact hm.1, ?_⟩
  intro r hr
  rcases List.mem_or_eq_of_mem_set hr with h | h
  · exact hm.2 r h
  · rw [h]; exact hrow

theorem gridFloatValue_shape (a b i j : Nat) (s s' : MemoryClass × Matrix)
    (h : gridFloatValue i j s = .ok s') (hs : HasShape s.2 a b) : HasShape s'.2 a b := by
  obtain ⟨mem, results⟩ := s
  simp only [gridFloatValue, bind, Except.bind, pure, Except.pure] at h
  split at h
  · cases h
  · split at h
    · cases h
    · split at h
      · cases h
      · rename_i row hrow
        split at h
        · cases h
        · rename_i row' hrow'
          cases h
          have hl : row.length = b := hs.2 row (index_mem _ _ _ hrow)
          unfold assign at hrow'
          split at hrow'
          · cases hrow'
            exact set_shape results a b i _ hs (by rw [List.length_set]; exact hl)
          · cases hrow'

theorem gridDoubleValue_shape (a b i j : Nat) (s s' : MemoryClass × Matrix)
    (h : gridDoubleValue i j s = .ok s') (hs : HasShape s.2 a b) : HasShape s'.2 a b := by
  obtain ⟨mem, results⟩ := s
  simp only [gridDoubleValue, bind, Except.bind, pure, Except.pure] at h
  split at h
  · cases h
  · rename_i row hrow
    split at h
    · cases h
    · split at h
      · cases h
      · cases h
        have hl : row.length = b := hs.2 row (index_mem _ _ _ hrow)
        exact set_shape results a b i _ hs (by rw [List.length_set]; exact hl)

theorem resize_length {α : Type} (v w : List α) (n : Int) (fill : α)
    (h : resize v n fill = .ok w) : w.length = n.toNat := by
  unfold resize at h
  split at h
  · cases h
  · cases h
    rw [List.length_append, List.length_take, List.length_replicate]
    omega

theorem resize_nil_shape (n numLon : Int) (row : List Nat) (m : Matrix)
    (hrow : vectorOfSize numLon = .ok row) (h : resize [] n row = .ok m) :
    HasShape m n.toNat numLon.toNat := by
  refine ⟨resize_length _ _ _ _ h, ?_⟩
  have hl : row.length = numLon.toNat := by
    unfold vectorOfSize at hrow
    split at hrow
    · cases hrow
    · cases hrow
      exact List.length_replicate _ _
  unfold resize at h
  split at h
  · cases h
  · cases h
    intro r hr
    simp only [List.take_nil, List.nil_append] at hr
    rw [List.eq_of_mem_replicate hr]
    exact hl

theorem readEach_length :
    ∀ (l l' : List Nat) (m m' : MemoryClass), readEach m l = .ok (m', l') →
      l'.length = l.length := by
  intro l
  induction l with
  | nil =>
    intro l' m m' h
    simp only [readEach] at h
    cases h
    rfl
  | cons x rest ih =>
    intro l' m m' h
    simp only [readEach, bind, Except.bind, pure, Except.pure] at h
    split at h
    · cases h
    · split at h
      · cases h
      · rename_i v hv
        cases h
        simp only [List.length_cons]
        rw [ih v.2 _ v.1 (by rw [hv])]

/-- Every return of the grid reader: `false` with the matrix empty and the axes as
the caller passed them, or `true` with both axes resized to their numbers, read in place,
and the matrix, sized to these numbers, filled in place by one of the two loops. -/
theorem readGrid_returns (mem : MemoryClass) (results : Matrix) (lats lons : List Nat)
    (r : GridResult) (h : readGridAndMatrixFromMBG2Format mem results lats lons = .ok r) :
    (r.ok = false ∧ r.results = [] ∧ r.lats = lats ∧ r.lons = lons) ∨
    (r.ok = true ∧ ∃ (numLat numLon : Int) (lats0 lons0 row : List Nat) (m0 : Matrix)
        (m1 m2 m3 m4 : MemoryClass),
      resize lats numLat 0 = .ok lats0 ∧ readEach m1 lats0 = .ok (m2, r.lats) ∧
      resize lons numLon 0 = .ok lons0 ∧ readEach m3 lons0 = .ok (m4, r.lons) ∧
      vectorOfSize numLon = .ok row ∧ resize [] numLat row = .ok m0 ∧
      (forLoop (fun i => forLoop (gridFloatValue i) r.lons.length 0) r.lats.length 0 (m4, m0)
          = .ok (r.mem, r.results) ∨
        forLoop (fun i => forLoop (gridDoubleValue i) r.lats.length 0) r.lats.length 0 (m4, m0)
          = .ok (r.mem, r.results))) := by
  unfold readGridAndMatrixFromMBG2Format at h
  simp only [bind, Except.bind, pure, Except.pure] at h
  repeat (any_goals (split at h))
  all_goals first
    | (cases h; done)
    | (cases h; exact Or.inl ⟨rfl, rfl, rfl, rfl⟩)
    | skip
  all_goals
    cases h
    rename_i _ v11 h11 _ v10 h10 _ v9 h9 _ v8 h8 _ v7 h7 _ v6 h6 _ v5 h5 _ v4 h4 _ v3 h3
      _ v2 h2 _ v1 h1 hp _ v hloop
    first
      | exact Or.inr ⟨rfl, toInt32 v10, toInt32 v6, v9, v5, v3, v2, v11.1, v8.1, v7.1, v4.1,
          h9, h8, h5, h4, h3, h2, Or.inl hloop⟩
      | exact Or.inr ⟨rfl, toInt32 v10, toInt32 v6, v9, v5, v3, v2, v11.1, v8.1, v7.1, v4.1,
          h9, h8, h5, h4, h3, h2, Or.inr hloop⟩

/-- C22. Whenever the grid reader returns `false`, whatever the buffer, the read
position and the outputs of the caller are, the matrix is empty and both axes are
what they were before the call. -/
theorem readGrid_false_outputs (mem : MemoryClass) (results : Matrix) (lats lons : List Nat)
    (r : GridResult) (h : readGridAndMatrixFromMBG2Format mem results lats lons = .ok r)
    (hf : r.ok = false) : r.results = [] ∧ r.lats = lats ∧ r.lons = lons := by
  rcases readGrid_returns mem results lats lons r h with ⟨_, h1⟩ | ⟨h1, _⟩
  · exact h1
  · rw [hf] at h1
    cases h1

theorem readGrid_false_outputs_witness :
    readGridAndMatrixFromMBG2Format ⟨encodeHeader 3 4 1 0 1 0 ++ [1, 2, 3], 0⟩ [[1]] [2] [3]
        = .ok ⟨false, ⟨encodeHeader 3 4 1 0 1 0 ++ [1, 2, 3], 32⟩, [], [2], [3],
            "only MBG version 2 supported, this is version 3\n"⟩ ∧
      (([] : Matrix) = [] ∧ [2] = [2] ∧ [3] = [3]) :=
  ⟨by decide, readGrid_false_outputs ⟨encodeHeader 3 4 1 0 1 0 ++ [1, 2, 3], 0⟩ [[1]] [2] [3]
    ⟨false, ⟨encodeHeader 3 4 1 0 1 0 ++ [1, 2, 3], 32⟩, [], [2], [3],
      "only MBG version 2 supported, this is version 3\n"⟩ (by decide) rfl⟩

/-- C23. After every return of `true` by the grid reader, whatever the buffer, the
precision and the outputs of the caller are, the matrix has as many rows as the latitude
axis has entries and every row has as many columns as the longitude axis has entries. -/
theorem readGrid_true_shape (mem : MemoryClass) (results : Matrix) (lats lons : List Nat)
    (r : GridResult) (h : readGridAndMatrixFromMBG2Format mem results lats lons = .ok r)
    (ht : r.ok = true) : HasShape r.results r.lats.length r.lons.length := by
  rcases readGrid_returns mem results lats lons r h with ⟨h1, _⟩ |
    ⟨_, numLat, numLon, lats0, lons0, row, m0, m1, m2, m3, m4, e1, e2, e3, e4, e5, e6, e7⟩
  · rw [ht] at h1
    cases h1
  · have l1 : r.lats.length = numLat.toNat := by
      rw [readEach_length _ _ _ _ e2, resize_length _ _ _ _ e1]
    have l2 : r.lons.length = numLon.toNat := by
      rw [readEach_length _ _ _ _ e4, resize_length _ _ _ _ e3]
    have s0 : HasShape (m4, m0).2 r.lats.length r.lons.length := by
      rw [l1, l2]
      exact resize_nil_shape numLat numLon row m0 e5 e6
    rcases e7 with e7 | e7
    · exact forLoop_invariant (fun s => HasShape s.2 r.lats.length r.lons.length) _
        (fun i s s' hb hs =>
          forLoop_invariant (fun s => HasShape s.2 r.lats.length r.lons.length) _
            (fun j t t' hb' ht' => gridFloatValue_shape _ _ i j t t' hb' ht') _ _ s s' hb hs)
        _ _ _ _ e7 s0
    · exact forLoop_invariant (fun s => HasShape s.2 r.lats.length r.lons.length) _
        (fun i s s' hb hs =>
          forLoop_invariant (fun s => HasShape s.2 r.lats.length r.lons.length) _
            (fun j t t' hb' ht' => gridDoubleValue_shape _ _ i j t t' hb' ht') _ _ s s' hb hs)
        _ _ _ _ e7 s0

set_option maxRecDepth 100000 in
theorem readGrid_true_shape_witness :
    readGridAndMatrixFromMBG2Format
        ⟨encodeMBG2 8 0 [10] [100] (encodeGridValues 8 [[5]]), 0⟩ [[1, 2], [3]] [4] [6, 7]
      = .ok ⟨true, ⟨encodeMBG2 8 0 [10] [100] (encodeGridValues 8 [[5]]), 64⟩, [[5]], [10],
          [100], ""⟩ ∧
    HasShape [[5]] 1 1 :=
  ⟨by decide,
    readGrid_true_shape ⟨encodeMBG2 8 0 [10] [100] (encodeGridValues 8 [[5]]), 0⟩
      [[1, 2], [3]] [4] [6, 7]
      ⟨true, ⟨encodeMBG2 8 0 [10] [100] (encodeGridValues 8 [[5]]), 64⟩, [[5]], [10], [100], ""⟩
      (by decide) rfl⟩

/-! ## The counts of the wire -/

theorem readEach_short (m : MemoryClass) (bs : List Byte) (h : Unread m bs)
    (hlt : bs.length < 8) : ∀ l : List Nat, readEach m l = .ok (m, l) := by
  intro l
  induction l with
  | nil => rfl
  | cons x rest ih =>
    simp only [readEach, bind, Except.bind, pure, Except.pure]
    rw [read_short 8 id m x bs h (by norm_num) hlt]
    simp only [id]
    rw [ih]

theorem forLoop_const {σ : Type} (body : Nat → σ → Except Fault σ) (s : σ)
    (h : ∀ i, body i s = .ok s) : ∀ n i, forLoop body n i s = .ok s := by
  intro n
  induction n with
  | zero => intro i; rfl
  | succ n ih =>
    intro i
    simp only [forLoop, bind, Except.bind]
    rw [h i]
    exact ih (i + 1)

theorem zeroPadded_zero (w : Nat) : zeroPadded w 0 = List.replicate w '0' := by
  induction w with
  | zero => rfl
  | succ w ih =>
    simp only [zeroPadded, Nat.zero_div, Nat.zero_mod, ih]
    rw [List.replicate_succ']
    rfl

theorem zeroPadded_length (w n : Nat) : (zeroPadded w n).length = w := by
  induction w generalizing n with
  | zero => rfl
  | succ w ih => simp [zeroPadded, ih]

theorem decimalDigits_pos (fuel n : Nat) : 0 < (decimalDigits (fuel + 1) n).length := by
  unfold decimalDigits
  split_ifs <;> simp

/-- Padding the digits of a number below `10 ^ w` with zeros up to the width `w` gives
its `w` digits. -/
theorem padded_eq (w : Nat) :
    ∀ fuel n, n < fuel → n < 10 ^ (w + 1) →
      List.replicate (w + 1 - (decimalDigits fuel n).length) '0' ++ decimalDigits fuel n
        = zeroPadded (w + 1) n := by
  induction w with
  | zero =>
    intro fuel n hf hn
    obtain ⟨f, rfl⟩ : ∃ f, fuel = f + 1 := ⟨fuel - 1, by omega⟩
    have h10 : n < 10 := by omega
    simp only [decimalDigits, if_pos h10, List.length_singleton, zeroPadded, Nat.mod_eq_of_lt h10]
    rfl
  | succ w ih =>
    intro fuel n hf hn
    obtain ⟨f, rfl⟩ : ∃ f, fuel = f + 1 := ⟨fuel - 1, by omega⟩
    by_cases h10 : n < 10
    · have hz : n / 10 = 0 := by omega
      simp only [decimalDigits, if_pos h10, List.length_singleton, Nat.mod_eq_of_lt h10]
      rw [zeroPadded, hz, zeroPadded_zero, Nat.mod_eq_of_lt h10]
      rfl
    · have hlen : n / 10 < 10 ^ (w + 1) := by rw [pow_succ] at hn; omega
      have hrec := ih f (n / 10) (by omega) hlen
      have hl := decimalDigits_length f w (n / 10) hlen
      rw [zeroPadded, ← hrec]
      simp only [decimalDigits, if_neg h10, List.length_append, List.length_singleton]
      have e : w + 1 + 1 - ((decimalDigits f (n / 10)).length + 1)
          = w + 1 - (decimalDigits f (n / 10)).length := by omega
      rw [e, List.append_assoc]

theorem putInt_zeroPadded (w : Nat) (n : Int) (h0 : 0 ≤ n) (h1 : n < 10 ^ (w + 1)) :
    putInt (w + 1) n = zeroPadded (w + 1) n.toNat := by
  have e : showInt n = decimalDigits (n.natAbs + 1) n.natAbs := by
    unfold showInt
    rw [if_neg (by omega)]
  have hn : n.natAbs = n.toNat := by omega
  unfold putInt
  rw [e, hn]
  apply padded_eq
  · omega
  · have : (n.toNat : Int) < 10 ^ (w + 1) := by omega
    exact_mod_cast this

/-- C26. For all integers with `0 ≤ year ≤ 9999` and the five other numbers between `0`
and `99`, `getIsoTimeStr` returns the string of 20 characters made of the four digits of
the year, `-`, the two digits of the month, `-`, the two digits of the day, `T`, the two
digits of the hour, `:`, those of the minute, `:`, those of the second and `Z`; no date
is checked. -/
theorem getIsoTimeStr_zeroPadded (year month day hour min sec : Int)
    (hy : 0 ≤ year ∧ year ≤ 9999) (hmo : 0 ≤ month ∧ month ≤ 99) (hd : 0 ≤ day ∧ day ≤ 99)
    (hh : 0 ≤ hour ∧ hour ≤ 99) (hmi : 0 ≤ min ∧ min ≤ 99) (hs : 0 ≤ sec ∧ sec ≤ 99) :
    getIsoTimeStr year month day hour min sec
      = String.mk (zeroPadded 4 year.toNat ++ '-' :: zeroPadded 2 month.toNat ++
          '-' :: zeroPadded 2 day.toNat ++ 'T' :: zeroPadded 2 hour.toNat ++
          ':' :: zeroPadded 2 min.toNat ++ ':' :: zeroPadded 2 sec.toNat ++ ['Z']) ∧
    (getIsoTimeStr year month day hour min sec).length = 20 := by
  have e : getIsoTimeStr year month day hour min sec
      = String.mk (zeroPadded 4 year.toNat ++ '-' :: zeroPadded 2 month.toNat ++
          '-' :: zeroPadded 2 day.toNat ++ 'T' :: zeroPadded 2 hour.toNat ++
          ':' :: zeroPadded 2 min.toNat ++ ':' :: zeroPadded 2 sec.toNat ++ ['Z']) := by
    unfold getIsoTimeStr
    rw [putInt_zeroPadded 3 year hy.1 (by omega), putInt_zeroPadded 1 month hmo.1 (by omega),
      putInt_zeroPadded 1 day hd.1 (by omega), putInt_zeroPadded 1 hour hh.1 (by omega),
      putInt_zeroPadded 1 min hmi.1 (by omega), putInt_zeroPadded 1 sec hs.1 (by omega)]
  refine ⟨e, ?_⟩
  rw [e]
  simp only [String.length, List.length_append, List.length_cons, zeroPadded_length,
    List.length_nil]

theorem getIsoTimeStr_zeroPadded_witness :
    getIsoTimeStr 2018 3 7 0 0 0 = "2018-03-07T00:00:00Z" ∧
    getIsoTimeStr 2018 3 7 0 0 0
      = String.mk (zeroPadded 4 (2018 : Int).toNat ++ '-' :: zeroPadded 2 (3 : Int).toNat ++
          '-' :: zeroPadded 2 (7 : Int).toNat ++ 'T' :: zeroPadded 2 (0 : Int).toNat ++
          ':' :: zeroPadded 2 (0 : Int).toNat ++ ':' :: zeroPadded 2 (0 : Int).toNat ++ ['Z']) ∧
    (getIsoTimeStr 2018 3 7 0 0 0).length = 20 :=
  ⟨by decide, getIsoTimeStr_zeroPadded 2018 3 7 0 0 0 (by decide) (by decide) (by decide)
    (by decide) (by decide) (by decide)⟩

theorem addInt_ok (a b : Int) (h1 : -2 ^ 31 ≤ a + b) (h2 : a + b < 2 ^ 31) :
    addInt a b = .ok (a + b) := by
  unfold addInt
  rw [if_pos ⟨h1, h2⟩]

theorem digitChar_ne_zero (d : Nat) (h1 : 0 < d) (h2 : d < 10) : digitChar d ≠ '0' := by
  interval_cases d <;> decide

/-- The first digit of a positive number is not `0`. -/
theorem decimalDigits_head (fuel : Nat) :
    ∀ n, 0 < n → n < fuel → ∃ c rest, decimalDigits fuel n = c :: rest ∧ c ≠ '0' := by
  induction fuel with
  | zero => intro n _ h; omega
  | succ f ih =>
    intro n h0 hf
    unfold decimalDigits
    split_ifs with h10
    · exact ⟨_, [], rfl, digitChar_ne_zero n h0 h10⟩
    · obtain ⟨c, rest, e, hc⟩ := ih (n / 10) (by omega) (by omega)
      exact ⟨c, rest ++ [digitChar (n % 10)], by rw [e]; rfl, hc⟩

theorem showInt_head (n : Int) (h : 0 < n) :
    ∃ c rest, showInt n = c :: rest ∧ c ≠ '0' := by
  unfold showInt
  rw [if_neg (by omega)]
  exact decimalDigits_head _ _ (by omega) (by omega)

/-- The time step string for numbers that are not negative and whose sum
`hour+min+sec` is an `int`: the text of the description, and `0D` when that text is
empty, which it is exactly when the six numbers are `0`; it is `0D` in that case only. -/
theorem getTimeStepStr_noOverflow (year month day hour min sec : Int)
    (hy : 0 ≤ year) (hmo : 0 ≤ month) (hd : 0 ≤ day) (hh : 0 ≤ hour) (hmi : 0 ≤ min)
    (hs : 0 ≤ sec) (hsum : hour + min + sec < 2 ^ 31) :
    ∃ s, getTimeStepStr year month day hour min sec = .ok s ∧ s ≠ "" ∧
      (s = "0D" ↔ year = 0 ∧ month = 0 ∧ day = 0 ∧ hour = 0 ∧ min = 0 ∧ sec = 0) ∧
      (timeStepText year month day hour min sec ≠ [] →
        s = String.mk (timeStepText year month day hour min sec)) := by
  have hT : (hour + min + sec > 0) ↔ (hour > 0 ∨ min > 0 ∨ sec > 0) := by omega
  have hrun : getTimeStepStr year month day hour min sec
      = .ok (if timeStepText year month day hour min sec = [] then "0D"
          else String.mk (timeStepText year month day hour min sec)) := by
    unfold getTimeStepStr
    rw [addInt_ok hour min (by omega) (by omega)]
    simp only []
    rw [addInt_ok (hour + min) sec (by omega) (by omega)]
    have key : ∀ L : List Char,
        (if L = [] then (Except.ok "0D" : Except Fault String) else .ok (String.mk L))
          = .ok (if L = [] then "0D" else String.mk L) := by
      intro L
      split_ifs <;> rfl
    simp only [timeStepText, hT]
    exact key _
  by_cases hall : year = 0 ∧ month = 0 ∧ day = 0 ∧ hour = 0 ∧ min = 0 ∧ sec = 0
  · obtain ⟨rfl, rfl, rfl, rfl, rfl, rfl⟩ := hall
    refine ⟨"0D", by rw [hrun]; rfl, by decide, by simp, ?_⟩
    intro hne
    exact absurd rfl hne
  · have hhead : ∃ c rest, timeStepText year month day hour min sec = c :: rest ∧ c ≠ '0' := by
      unfold timeStepText
      by_cases c1 : year > 0
      · obtain ⟨c, rest, e, hc⟩ := showInt_head year c1
        rw [if_pos c1, e]
        exact ⟨c, _, by simp only [List.cons_append, List.append_assoc]; rfl, hc⟩
      · by_cases c2 : month > 0
        · obtain ⟨c, rest, e, hc⟩ := showInt_head month c2
          rw [if_neg c1, if_pos c2, e]
          exact ⟨c, _, by simp only [List.nil_append, List.cons_append, List.append_assoc]; rfl,
            hc⟩
        · by_cases c3 : day > 0
          · obtain ⟨c, rest, e, hc⟩ := showInt_head day c3
            rw [if_neg c1, if_neg c2, if_pos c3, e]
            exact ⟨c, _,
              by simp only [List.nil_append, List.cons_append, List.append_assoc]; rfl, hc⟩
          · have c4 : hour > 0 ∨ min > 0 ∨ sec > 0 := by omega
            rw [if_neg c1, if_neg c2, if_neg c3, if_pos c4]
            exact ⟨'T', _,
              by simp only [List.nil_append, List.cons_append, List.append_assoc]; rfl,
              by decide⟩
    obtain ⟨c, rest, e, hc⟩ := hhead
    have hne : timeStepText year month day hour min sec ≠ [] := by rw [e]; simp
    refine ⟨String.mk (timeStepText year month day hour min sec), ?_, ?_, ?_, fun _ => rfl⟩
    · rw [hrun, if_neg hne]
    · intro h
      have := congrArg String.data h
      simp only at this
      exact hne this
    · constructor
      · intro h
        have h2 := congrArg String.data h
        rw [e] at h2
        have h3 : c = '0' := by
          have := List.head_eq_of_cons_eq h2
          exact this
        exact absurd h3 hc
      · intro h
        exact absurd h hall

/-- C27. The sum `hour+min+sec` of `getTimeStepStr` is an `int` sum: for the numbers
`(0, 0, 0, 2147483647, 1, 0)` it is outside the range of `int`, so that the function has
no defined result where the description gives `T2147483647H1M`. -/
theorem getTimeStepStr_overflow :
    getTimeStepStr 0 0 0 2147483647 1 0 = .error .overflow ∧
      String.mk (timeStepText 0 0 0 2147483647 1 0) = "T2147483647H1M" ∧
      getTimeStepStr 0 0 0 1 0 0 = .ok "T1H" := by
  decide

/-! ## The outputs and the read position of the time-series readers -/

theorem encodeSinglePoint_length (P : Nat) :
    ∀ records : List DateRecord, (∀ r ∈ records, r.values.length = P) →
      (records.flatMap (encodeRecord P)).length = records.length * (12 + 8 * P) := by
  intro records
  induction records with
  | nil => intro _; simp
  | cons r rest ih =>
    intro h
    have hr : r.values.length = P := h r (by simp)
    have hrest := ih (fun x hx => h x (by simp [hx]))
    rw [List.flatMap_cons, List.length_append, hrest]
    simp only [encodeRecord, List.length_append, leBytes_length, length_values, hr,
      List.length_cons]
    ring

/-- C29. A single-point reply of two records of which the first declares one parameter
and the second two: the rows are sized for one value, and the second value of the second
record is written to `results[1][1]`, outside its row. -/
theorem readSinglePoint_rowOverrun (conv : Nat → String) :
    readSinglePointTimeSeriesBin conv
        { mem := leBytes 4 2 ++ encodeRecord 1 ⟨7, [5]⟩ ++ encodeRecord 2 ⟨8, [6, 7]⟩,
          readPos := 0 } [] []
      = .error .outOfRange := by
  rfl

/-- C25. The decode step of `getMultiPointTimeSeries` on a reply for two coordinates with
one date each: with `times` holding one string before the call the timestamps come out
behind that string, with `times` empty they come out alone; the matrices are the same.
The single-point reader, handed a matrix that holds a row, keeps the surplus of that
row. -/
theorem getMultiPointTimeSeries_times_kept (conv : Nat → String) :
    getMultiPointTimeSeries conv
        { mem := encodeMultiPoint [[⟨7, [1]⟩], [⟨9, [2]⟩]], readPos := 0 } 200 2 [] ["old"] []
      = .ok ⟨true, [[[1]], [[2]]], ["old", conv 7, conv 9], []⟩ ∧
    getMultiPointTimeSeries conv
        { mem := encodeMultiPoint [[⟨7, [1]⟩], [⟨9, [2]⟩]], readPos := 0 } 200 2 [] [] []
      = .ok ⟨true, [[[1]], [[2]]], [conv 7, conv 9], []⟩ ∧
    readSinglePointTimeSeriesBin conv
        { mem := encodeSinglePoint 1 [⟨7, [5]⟩], readPos := 0 } [[9, 9, 9]] []
      = .ok (true, { mem := encodeSinglePoint 1 [⟨7, [5]⟩], readPos := 24 }, [[5, 9, 9]],
          [conv 7]) ∧
    readSinglePointTimeSeriesBin conv
        { mem := encodeSinglePoint 1 [⟨7, [5]⟩], readPos := 0 } [] []
      = .ok (true, { mem := encodeSinglePoint 1 [⟨7, [5]⟩], readPos := 24 }, [[5]],
          [conv 7]) := by
  refine ⟨rfl, rfl, rfl, rfl⟩

/-- C30. The grid overload of `createLatLonListString` with two latitudes and one
longitude: the test `lons.size() != numLat and lons.size() > 2` does not hold, and the
loop reads `lons[1]` outside the vector.  With three latitudes and three longitudes the
test does not hold either and a string is returned. -/
theorem createLatLonListStringGrid_and (showDouble : Nat → List Char) (res_lat res_lon : Int) :
    createLatLonListStringGrid showDouble [1, 2] [3] res_lat res_lon = .error .outOfRange ∧
    createLatLonListStringGrid showDouble [1, 2, 3] [4, 5, 6] res_lat res_lon
      = .ok ⟨String.mk (showDouble 1 ++ [','] ++ showDouble 4 ++ ['_'] ++ showDouble 2 ++ [',']
          ++ showDouble 5 ++ ['_'] ++ showDouble 3 ++ [','] ++ showDouble 6 ++ [':']
          ++ showInt res_lat ++ ['x'] ++ showInt res_lon), ""⟩ ∧
    createLatLonListString showDouble [1, 2] [3]
      = .ok ⟨"", "Received different number of coordinates for lat and lon.\n"⟩ := by
  refine ⟨rfl, ?_, rfl⟩
  simp [createLatLonListStringGrid, forLoop, latLonItem, index, bind, Except.bind, pure,
    Except.pure, sizeModulus]

end Meteomatics
